import Mathlib

/-!
# Verification of the satisfactory-planner production-graph engine

Shallow embedding of `src/planner/graph.py` (class `GenGraph`: `expand`,
`scale_connected_component`, `merge_leaves`, `_is_valid_item`,
`_build_adjacency`) and of `src/planner/session.py`
(`graph_to_dict` / `graph_from_dict`), together with proofs of the
specified properties.

Modelling decisions:
* Python `float` is modelled by `ℚ` (exact rationals): the engine only
  divides, multiplies and sums rates, and the specified properties are
  about that exact arithmetic, not about rounding.
* Python item-node ids are arbitrary machine integers, modelled by `Int`.
  Recipe-node ids only ever arise from `enumerate`, hence `Nat`.
* The human-readable message strings returned by the operations are
  modelled by the inductive `Msg`: one constructor per string literal of
  the source, carrying the values interpolated into the f-string.
* Mutation is modelled by state passing: each operation takes the graph
  and returns `(success, message, new graph)`; the Python methods perform
  no mutation before a `return False`, which the embedding mirrors by
  returning the input graph unchanged on every failure branch.
-/

namespace Planner

/-- `planner.models.Recipe` (dataclass). -/
structure Recipe where
  ins : List (String × ℚ)
  outs : List (String × ℚ)
  machine_name : String := "Machine"
  machine_class : String := ""
  recipe_id : String := ""
deriving DecidableEq, Repr, Inhabited

/-- `planner.models.ItemNode` (dataclass). -/
structure ItemNode where
  name : String
  rate : ℚ
  active : Bool := true
deriving DecidableEq, Repr, Inhabited

/-- `planner.models.RecipeNode` (dataclass). -/
structure RecipeNode where
  recipe : Recipe
  machines : ℚ
  machine_name : String
  in_ids : List Int
  out_ids : List Int
  active : Bool := true
deriving DecidableEq, Repr, Inhabited

/-- `planner.graph.GenGraph` (dataclass): the two parallel node sequences. -/
structure GenGraph where
  item_nodes : List ItemNode
  recipe_nodes : List RecipeNode
deriving DecidableEq, Repr, Inhabited

/-- The message strings returned by the three operations, one constructor
per string literal of `graph.py`, carrying the interpolated values. -/
inductive Msg where
  | invalidItemId                                          -- "Invalid item node id."
  | alreadyProduced            -- "This node is already produced. Expand a different node."
  | notProduced                -- "Selected recipe does not produce this item."
  | duplicatedOutputs          -- "Recipe has duplicated outputs for this item; cannot disambiguate."
  | invalidOutputRate          -- "Invalid recipe output rate."
  | targetNotPositive          -- "Target node rate must be positive."
  | expanded                                               -- "Expanded."
  | targetRateMustBePositive   -- "Target rate must be positive."
  | currentRateZero            -- "Current node rate is zero; cannot scale by ratio."
  | scaledComponent (factor : ℚ) (nItems nRecipes : Nat)
      -- "Scaled component by x<factor> (<nItems> item nodes, <nRecipes> recipe nodes)."
  | needTwoDistinct            -- "Specify at least two distinct item node IDs."
  | invalidItemIdAt (id : Int) -- "Invalid item node id: <id>"
  | onlySameName               -- "Only same-name item nodes can be merged."
  | notLeaf (id : Int)         -- "Item node {id} is not a leaf (already has producer)."
  | noConsumers (id : Int)     -- "Item node {id} has no consumers."
  | merged (id : Int) (name : String) (rate : ℚ)
      -- "Merged into node <id> (<name> <rate>/min)."
deriving DecidableEq, Repr

namespace GenGraph

/-- `GenGraph._is_valid_item`:
`0 <= item_id < len(self.item_nodes) and self.item_nodes[item_id].active`. -/
def isValidItem (g : GenGraph) (item_id : Int) : Bool :=
  decide (0 ≤ item_id) && decide (item_id < (g.item_nodes.length : Int)) &&
    (g.item_nodes.getD item_id.toNat default).active

/-- The `producers` map of `GenGraph._build_adjacency`, read at one item id:
for each active recipe node (in index order), one entry per occurrence of
`item_id` among its `out_ids` that passes `_is_valid_item`. -/
def producersOf (g : GenGraph) (item_id : Int) : List Nat :=
  (List.range g.recipe_nodes.length).flatMap fun recipe_id =>
    let rn := g.recipe_nodes.getD recipe_id default
    if rn.active then
      rn.out_ids.filterMap fun out_id =>
        if out_id = item_id ∧ g.isValidItem out_id then some recipe_id else none
    else []

/-- The `consumers` map of `GenGraph._build_adjacency`, read at one item id:
same as `producersOf` but over `in_ids`. -/
def consumersOf (g : GenGraph) (item_id : Int) : List Nat :=
  (List.range g.recipe_nodes.length).flatMap fun recipe_id =>
    let rn := g.recipe_nodes.getD recipe_id default
    if rn.active then
      rn.in_ids.filterMap fun in_id =>
        if in_id = item_id ∧ g.isValidItem in_id then some recipe_id else none
    else []

/-- The loop `for i, (new_item_name, rate) in enumerate(recipe.outs)` of
`GenGraph.expand`: `i` is the enumeration counter, the state carries the
growing item-node list (a new id is `len(item_nodes)` at append time) and
the `recipe_outs` list being built. -/
def expandOuts (item_node_id : Int) (out_pos : Nat) (machines : ℚ) :
    Nat → List (String × ℚ) → List ItemNode → List Int →
    List ItemNode × List Int
  | _, [], items, ids => (items, ids)
  | i, p :: rest, items, ids =>
    if i = out_pos then
      expandOuts item_node_id out_pos machines (i + 1) rest items
        (ids ++ [item_node_id])
    else
      expandOuts item_node_id out_pos machines (i + 1) rest
        (items ++ [{ name := p.1, rate := machines * p.2 }])
        (ids ++ [(items.length : Int)])

/-- The loop `for new_item_name, rate in recipe.ins` of `GenGraph.expand`:
every input slot unconditionally appends a new item node. -/
def expandIns (machines : ℚ) :
    List (String × ℚ) → List ItemNode → List Int → List ItemNode × List Int
  | [], items, ids => (items, ids)
  | p :: rest, items, ids =>
    expandIns machines rest
      (items ++ [{ name := p.1, rate := machines * p.2 }])
      (ids ++ [(items.length : Int)])

/-- `GenGraph.expand(item_node_id, recipe)`. Returns
`(success, message, resulting graph)`. -/
def expand (g : GenGraph) (item_node_id : Int) (recipe : Recipe) :
    Bool × Msg × GenGraph :=
  if ¬ g.isValidItem item_node_id then (false, .invalidItemId, g)
  else if (g.producersOf item_node_id).length > 0 then (false, .alreadyProduced, g)
  else
    let item_node := g.item_nodes.getD item_node_id.toNat default
    let item_name := item_node.name
    let out_pos_list :=
      (List.range recipe.outs.length).filter fun i =>
        (recipe.outs.getD i default).1 = item_name
    if out_pos_list.length = 0 then (false, .notProduced, g)
    else if out_pos_list.length > 1 then (false, .duplicatedOutputs, g)
    else
      let out_pos := out_pos_list.headD 0
      let out_rate := (recipe.outs.getD out_pos default).2
      if out_rate ≤ 0 then (false, .invalidOutputRate, g)
      else
        let machines := item_node.rate / out_rate
        if machines ≤ 0 then (false, .targetNotPositive, g)
        else
          let outRes := expandOuts item_node_id out_pos machines 0 recipe.outs
            g.item_nodes []
          let inRes := expandIns machines recipe.ins outRes.1 []
          (true, .expanded,
            { item_nodes := inRes.1,
              recipe_nodes := g.recipe_nodes ++
                [{ recipe := recipe, machines := machines,
                   machine_name := recipe.machine_name,
                   in_ids := inRes.2, out_ids := outRes.2 }] })

/-- A node of the implicit bipartite traversal graph of
`scale_connected_component`: the Python tuples `("item", id)` / `("recipe", id)`. -/
inductive BNode where
  | item (id : Int)
  | recipe (id : Nat)
deriving DecidableEq, Repr

/-- One pop of the BFS `while queue` loop of `scale_connected_component`,
expanding an item node: the two `for` loops over `producers[node_id]` and
`consumers[node_id]`, each appending unvisited recipe ids to the visited
set and to the queue. -/
def bfsItemStep (acc : List Nat × List BNode) (recipe_id : Nat) :
    List Nat × List BNode :=
  if recipe_id ∈ acc.1 then acc
  else (acc.1 ++ [recipe_id], acc.2 ++ [.recipe recipe_id])

/-- One pop of the BFS loop expanding a recipe node: the loop over
`recipe_node.in_ids + recipe_node.out_ids`, appending unvisited valid item
ids to the visited set and to the queue. -/
def bfsRecipeStep (g : GenGraph) (acc : List Int × List BNode) (item_id : Int) :
    List Int × List BNode :=
  if g.isValidItem item_id ∧ item_id ∉ acc.1 then
    (acc.1 ++ [item_id], acc.2 ++ [.item item_id])
  else acc

/-- The `while queue` loop of `scale_connected_component`, with explicit
fuel (each iteration pops one queue element; the fuel used below provably
dominates the number of pops). Returns `(visited_items, visited_recipes)`
in insertion order. -/
def bfsLoop (g : GenGraph) :
    Nat → List BNode → List Int → List Nat → List Int × List Nat
  | 0, _, vi, vr => (vi, vr)
  | _ + 1, [], vi, vr => (vi, vr)
  | fuel + 1, node :: rest, vi, vr =>
    match node with
    | .item iid =>
      let res := (g.producersOf iid ++ g.consumersOf iid).foldl bfsItemStep (vr, [])
      bfsLoop g fuel (rest ++ res.2) vi res.1
    | .recipe rid =>
      let rn := g.recipe_nodes.getD rid default
      if ¬ rn.active then bfsLoop g fuel rest vi vr
      else
        let res := (rn.in_ids ++ rn.out_ids).foldl (bfsRecipeStep g) (vi, [])
        bfsLoop g fuel (rest ++ res.2) res.1 vr

/-- The full BFS of `scale_connected_component`, started from
`visited_items = {item_node_id}`, `queue = [("item", item_node_id)]`. -/
def bfsFrom (g : GenGraph) (item_node_id : Int) : List Int × List Nat :=
  bfsLoop g (g.item_nodes.length + g.recipe_nodes.length + 1)
    [.item item_node_id] [item_node_id] []

/-- The loop `for item_id in visited_items: self.item_nodes[item_id].rate *= factor`. -/
def scaleItems (items : List ItemNode) (ids : List Int) (factor : ℚ) :
    List ItemNode :=
  ids.foldl
    (fun acc i =>
      acc.set i.toNat
        { acc.getD i.toNat default with
          rate := (acc.getD i.toNat default).rate * factor })
    items

/-- The loop `for recipe_id in visited_recipes: self.recipe_nodes[recipe_id].machines *= factor`. -/
def scaleRecipes (recipes : List RecipeNode) (ids : List Nat) (factor : ℚ) :
    List RecipeNode :=
  ids.foldl
    (fun acc i =>
      acc.set i
        { acc.getD i default with
          machines := (acc.getD i default).machines * factor })
    recipes

/-- `GenGraph.scale_connected_component(item_node_id, target_rate)`. -/
def scale_connected_component (g : GenGraph) (item_node_id : Int)
    (target_rate : ℚ) : Bool × Msg × GenGraph :=
  if ¬ g.isValidItem item_node_id then (false, .invalidItemId, g)
  else if target_rate ≤ 0 then (false, .targetRateMustBePositive, g)
  else
    let current_rate := (g.item_nodes.getD item_node_id.toNat default).rate
    if current_rate ≤ 0 then (false, .currentRateZero, g)
    else
      let factor := target_rate / current_rate
      let visited := g.bfsFrom item_node_id
      (true, .scaledComponent factor visited.1.length visited.2.length,
        { item_nodes := scaleItems g.item_nodes visited.1 factor,
          recipe_nodes := scaleRecipes g.recipe_nodes visited.2 factor })

/-- The order-preserving de-duplication loop at the top of
`GenGraph.merge_leaves` (`seen` membership coincides with membership in
the accumulated list). -/
def orderedUnique (l : List Int) : List Int :=
  l.foldl (fun acc x => if x ∈ acc then acc else acc ++ [x]) []

/-- `GenGraph.merge_leaves(item_node_ids)`. -/
def merge_leaves (g : GenGraph) (item_node_ids : List Int) :
    Bool × Msg × GenGraph :=
  let uniq := orderedUnique item_node_ids
  if uniq.length < 2 then (false, .needTwoDistinct, g)
  else
    match uniq.find? (fun i => ! g.isValidItem i) with
    | some bad => (false, .invalidItemIdAt bad, g)
    | none =>
      if (uniq.map fun i => (g.item_nodes.getD i.toNat default).name).dedup.length
          ≠ 1 then
        (false, .onlySameName, g)
      else
        match uniq.find? (fun i =>
            decide (0 < (g.producersOf i).length) ||
            decide ((g.consumersOf i).length = 0)) with
        | some bad =>
          if 0 < (g.producersOf bad).length then (false, .notLeaf bad, g)
          else (false, .noConsumers bad, g)
        | none =>
          let keep_id := uniq.headD 0
          let drop_set := uniq.tail
          let merged_rate :=
            (uniq.map fun i => (g.item_nodes.getD i.toNat default).rate).sum
          let recipes' := g.recipe_nodes.map fun rn =>
            if rn.active then
              { rn with
                in_ids := rn.in_ids.map fun i => if i ∈ drop_set then keep_id else i }
            else rn
          let items1 := g.item_nodes.set keep_id.toNat
            { g.item_nodes.getD keep_id.toNat default with rate := merged_rate }
          let items2 := drop_set.foldl
            (fun acc i => acc.set i.toNat { acc.getD i.toNat default with active := false })
            items1
          (true,
           .merged keep_id (items2.getD keep_id.toNat default).name merged_rate,
           { item_nodes := items2, recipe_nodes := recipes' })

end GenGraph

/-! ## Session serialization (`src/planner/session.py`)

The JSON dictionaries produced by `graph_to_dict` and consumed by
`graph_from_dict` are modelled structurally: one structure per dictionary
shape, with `Option` exactly for the keys read through `.get(key, default)`
in `graph_from_dict` (`graph_to_dict` always writes every key, hence
always produces `some`). The Python coercions `float(...)`, `int(...)`,
`bool(...)` are identities on the modelled value types. -/

/-- The per-item dictionary `{"name": ..., "rate": ..., "active": ...}`;
`active` is read via `item.get("active", True)`. -/
structure ItemNodeDict where
  name : String
  rate : ℚ
  active : Option Bool
deriving DecidableEq, Repr

/-- The nested recipe dictionary; `machine_name`, `machine_class` and
`recipe_id` are read via `.get` with defaults. -/
structure RecipeDict where
  ins : List (String × ℚ)
  outs : List (String × ℚ)
  machine_name : Option String
  machine_class : Option String
  recipe_id : Option String
deriving DecidableEq, Repr

/-- The per-recipe-node dictionary; `active` is read via `.get("active", True)`. -/
structure RecipeNodeDict where
  recipe : RecipeDict
  machines : ℚ
  machine_name : String
  in_ids : List Int
  out_ids : List Int
  active : Option Bool
deriving DecidableEq, Repr

/-- The top-level dictionary; both lists are read via `.get(key, [])`. -/
structure GraphDict where
  item_nodes : Option (List ItemNodeDict)
  recipe_nodes : Option (List RecipeNodeDict)
deriving DecidableEq, Repr

/-- `planner.session.graph_to_dict`. -/
def graph_to_dict (graph : GenGraph) : GraphDict :=
  { item_nodes := some (graph.item_nodes.map fun n =>
      { name := n.name, rate := n.rate, active := some n.active }),
    recipe_nodes := some (graph.recipe_nodes.map fun r =>
      { recipe :=
          { ins := r.recipe.ins, outs := r.recipe.outs,
            machine_name := some r.recipe.machine_name,
            machine_class := some r.recipe.machine_class,
            recipe_id := some r.recipe.recipe_id },
        machines := r.machines,
        machine_name := r.machine_name,
        in_ids := r.in_ids,
        out_ids := r.out_ids,
        active := some r.active }) }

/-- `planner.session.graph_from_dict`. -/
def graph_from_dict (data : GraphDict) : GenGraph :=
  { item_nodes := (data.item_nodes.getD []).map fun item =>
      { name := item.name, rate := item.rate,
        active := item.active.getD true },
    recipe_nodes := (data.recipe_nodes.getD []).map fun recipe_node =>
      { recipe :=
          { ins := recipe_node.recipe.ins.map fun p => (p.1, p.2),
            outs := recipe_node.recipe.outs.map fun p => (p.1, p.2),
            machine_name := recipe_node.recipe.machine_name.getD "Machine",
            machine_class := recipe_node.recipe.machine_class.getD "",
            recipe_id := recipe_node.recipe.recipe_id.getD "" },
        machines := recipe_node.machines,
        machine_name := recipe_node.machine_name,
        in_ids := recipe_node.in_ids.map fun x => x,
        out_ids := recipe_node.out_ids.map fun x => x,
        active := recipe_node.active.getD true } }


namespace GenGraph

/-- The undirected adjacency relation underlying the BFS of
`scale_connected_component`: an item and a recipe are adjacent exactly
when the recipe is an active producer or consumer of the (valid, active)
item. -/
def Adj (g : GenGraph) : BNode → BNode → Prop
  | .item i, .recipe rid => rid ∈ g.producersOf i ∨ rid ∈ g.consumersOf i
  | .recipe rid, .item i => rid ∈ g.producersOf i ∨ rid ∈ g.consumersOf i
  | _, _ => False

/-- The weakly-connected component of the item node `start`: everything
reachable from `("item", start)` through `Adj`, treated as undirected
(`Adj` is symmetric by construction). -/
def InComponent (g : GenGraph) (start : Int) (n : BNode) : Prop :=
  Relation.ReflTransGen (Adj g) (.item start) n

/-- Membership of a traversal node in the pair of visited lists. -/
def visMem (vi : List Int) (vr : List Nat) : BNode → Prop
  | .item i => i ∈ vi
  | .recipe r => r ∈ vr

end GenGraph

def exR1 : Recipe :=
  ⟨[("Plastic", 30), ("Fuel", 30)], [("Rubber", 60)], "Refinery", "", ""⟩

def exG1 : GenGraph := ⟨[⟨"Rubber", 60, true⟩], []⟩

def exG3 : GenGraph :=
  ⟨[⟨"A", 60, true⟩, ⟨"B", 90, true⟩,
    ⟨"Iron Ore", 30, true⟩, ⟨"Iron Ore", 45, true⟩],
   [⟨⟨[("Iron Ore", 30)], [("A", 60)], "Smelter", "", ""⟩, 1, "Smelter",
      [2], [0], true⟩,
    ⟨⟨[("Iron Ore", 45)], [("B", 90)], "Smelter", "", ""⟩, 1, "Smelter",
      [3], [1], true⟩]⟩

/-- Invariant 3 of the spec: rates and machine counts of active nodes are
strictly positive. -/
def PosInv (g : GenGraph) : Prop :=
  (∀ n ∈ g.item_nodes, n.active = true → 0 < n.rate) ∧
  (∀ rn ∈ g.recipe_nodes, rn.active = true → 0 < rn.machines)

/-- A catalog recipe whose declared input and output rates are all
strictly positive. -/
def PosRecipe (r : Recipe) : Prop :=
  (∀ p ∈ r.ins, 0 < p.2) ∧ (∀ p ∈ r.outs, 0 < p.2)

/-- One public mutating operation of the graph engine. -/
inductive Op where
  | expandOp (item_node_id : Int) (recipe : Recipe)
  | scaleOp (item_node_id : Int) (target_rate : ℚ)
  | mergeOp (item_node_ids : List Int)

/-- Dispatch one operation. -/
def applyOp (g : GenGraph) : Op → Bool × Msg × GenGraph
  | .expandOp id r => g.expand id r
  | .scaleOp id t => g.scale_connected_component id t
  | .mergeOp ids => g.merge_leaves ids

/-- Run a sequence of operations, keeping each resulting graph (failed
operations leave the graph unchanged). -/
def applyOps (g : GenGraph) (ops : List Op) : GenGraph :=
  ops.foldl (fun h op => (applyOp h op).2.2) g

/-- The side condition under which the positivity invariant is actually
preserved: every recipe handed to `expand` has all-positive declared
rates. -/
def OpRecipesPos : Op → Prop
  | .expandOp _ r => PosRecipe r
  | .scaleOp _ _ => True
  | .mergeOp _ => True

def exR5bad : Recipe := ⟨[("Water", 0)], [("Rubber", 60)], "Refinery", "", ""⟩

def exR0 : Recipe := ⟨[("Coal", 5)], [("Steel", 10)], "Foundry", "", ""⟩

def exR2 : Recipe :=
  ⟨[("Oil", 30)], [("Rubber", 20), ("Rubber", 40)], "Refinery", "", ""⟩

def exG2 : GenGraph :=
  ⟨[⟨"Rubber", 60, true⟩, ⟨"Plastic", 30, true⟩, ⟨"Fuel", 30, true⟩,
    ⟨"Iron Rod", 7, true⟩],
   [⟨exR1, 1, "Refinery", [1, 2], [0], true⟩]⟩

end Planner

namespace Planner

/-- Claim C6: serializing any graph with `graph_to_dict` and deserializing
it with `graph_from_dict` reproduces the graph exactly: identical names,
rates and active flags for item nodes and identical recipe data, machine
counts, machine names, id lists and active flags for recipe nodes at every
index; tombstoned nodes round-trip as tombstoned. -/
theorem roundtrip (g : GenGraph) : graph_from_dict (graph_to_dict g) = g := by
  cases g with
  | mk items recipes =>
    simp only [graph_from_dict, graph_to_dict, List.map_map, Option.getD_some]
    exact congrArg₂ GenGraph.mk
      (List.map_id'' (fun n => rfl) items)
      (List.map_id'' (fun r => by
        simp only [Function.comp_apply, List.map_id', Option.getD_some]) recipes)

end Planner


namespace Planner
namespace GenGraph

theorem expand_fst_or (g : GenGraph) (id : Int) (r : Recipe) :
    (g.expand id r).1 = true ∨ (g.expand id r).2.2 = g := by
  unfold expand
  split
  · exact Or.inr rfl
  · split
    · exact Or.inr rfl
    · dsimp only
      split
      · exact Or.inr rfl
      · split
        · exact Or.inr rfl
        · split
          · exact Or.inr rfl
          · split
            · exact Or.inr rfl
            · exact Or.inl rfl

theorem scale_fst_or (g : GenGraph) (id : Int) (t : ℚ) :
    (g.scale_connected_component id t).1 = true ∨
      (g.scale_connected_component id t).2.2 = g := by
  unfold scale_connected_component
  split
  · exact Or.inr rfl
  · split
    · exact Or.inr rfl
    · dsimp only
      split
      · exact Or.inr rfl
      · exact Or.inl rfl

theorem merge_fst_or (g : GenGraph) (ids : List Int) :
    (g.merge_leaves ids).1 = true ∨ (g.merge_leaves ids).2.2 = g := by
  unfold merge_leaves
  dsimp only
  split
  · exact Or.inr rfl
  · split
    · exact Or.inr rfl
    · split
      · exact Or.inr rfl
      · split
        · split
          · exact Or.inr rfl
          · exact Or.inr rfl
        · exact Or.inl rfl

end GenGraph
end Planner

namespace Planner
namespace GenGraph

theorem expand_graph_of_fail (g : GenGraph) (id : Int) (r : Recipe)
    (h : (g.expand id r).1 = false) : (g.expand id r).2.2 = g :=
  (expand_fst_or g id r).resolve_left (by simp [h])

theorem scale_graph_of_fail (g : GenGraph) (id : Int) (t : ℚ)
    (h : (g.scale_connected_component id t).1 = false) :
    (g.scale_connected_component id t).2.2 = g :=
  (scale_fst_or g id t).resolve_left (by simp [h])

theorem merge_graph_of_fail (g : GenGraph) (ids : List Int)
    (h : (g.merge_leaves ids).1 = false) : (g.merge_leaves ids).2.2 = g :=
  (merge_fst_or g ids).resolve_left (by simp [h])

theorem isValidItem_false_of_oob (g : GenGraph) (id : Int)
    (h : id < 0 ∨ (g.item_nodes.length : Int) ≤ id) :
    g.isValidItem id = false := by
  unfold isValidItem
  rcases h with h | h
  · simp [not_le.mpr h]
  · simp [not_lt.mpr h]

theorem mem_orderedUnique_aux (l : List Int) (acc : List Int) (x : Int) :
    x ∈ l.foldl (fun acc x => if x ∈ acc then acc else acc ++ [x]) acc ↔
      x ∈ acc ∨ x ∈ l := by
  induction l generalizing acc with
  | nil => simp
  | cons a t ih =>
    simp only [List.foldl_cons, ih, List.mem_cons]
    split
    · rename_i hmem
      constructor
      · rintro (h | h)
        · exact Or.inl h
        · exact Or.inr (Or.inr h)
      · rintro (h | h | h)
        · exact Or.inl h
        · exact Or.inl (h ▸ hmem)
        · exact Or.inr h
    · simp only [List.mem_append, List.mem_singleton]
      tauto

theorem mem_orderedUnique (l : List Int) (x : Int) :
    x ∈ orderedUnique l ↔ x ∈ l := by
  unfold orderedUnique
  rw [mem_orderedUnique_aux]
  simp

end GenGraph
end Planner

namespace Planner
namespace GenGraph

theorem nodup_orderedUnique_aux (l : List Int) (acc : List Int)
    (h : acc.Nodup) :
    (l.foldl (fun acc x => if x ∈ acc then acc else acc ++ [x]) acc).Nodup := by
  induction l generalizing acc with
  | nil => simpa using h
  | cons a t ih =>
    simp only [List.foldl_cons]
    split
    · exact ih acc h
    · rename_i hnm
      exact ih _ (by simp [List.nodup_append, h, hnm])

theorem nodup_orderedUnique (l : List Int) : (orderedUnique l).Nodup :=
  nodup_orderedUnique_aux l [] List.nodup_nil

theorem headD_orderedUnique_aux (l : List Int) (acc : List Int) (d : Int)
    (h : acc ≠ []) :
    (l.foldl (fun acc x => if x ∈ acc then acc else acc ++ [x]) acc).headD d =
      acc.headD d := by
  induction l generalizing acc with
  | nil => rfl
  | cons a t ih =>
    simp only [List.foldl_cons]
    split
    · exact ih acc h
    · rw [ih (acc ++ [a]) (by simp)]
      cases acc with
      | nil => exact absurd rfl h
      | cons x xs => rfl

theorem headD_orderedUnique (a : Int) (t : List Int) (d : Int) :
    (orderedUnique (a :: t)).headD d = a := by
  unfold orderedUnique
  rw [List.foldl_cons, if_neg (by simp : ¬ a ∈ ([] : List Int))]
  rw [headD_orderedUnique_aux t ([] ++ [a]) d (by simp)]
  rfl

/-- Claim C10: for any item id outside the valid index range (negative or at/past
the length of the item-node sequence), `expand`, `scale_connected_component`
and `merge_leaves` all return a failure result: the `_is_valid_item` check
is total over the integers and no public operation performs an
out-of-range access. -/
theorem C10_total_validity (g : GenGraph) (id : Int) (r : Recipe) (t : ℚ)
    (ids : List Int) (h : id < 0 ∨ (g.item_nodes.length : Int) ≤ id) :
    (g.expand id r).1 = false ∧
    (g.scale_connected_component id t).1 = false ∧
    (id ∈ ids → (g.merge_leaves ids).1 = false) := by
  have hv := isValidItem_false_of_oob g id h
  refine ⟨?_, ?_, ?_⟩
  · unfold expand; simp [hv]
  · unfold scale_connected_component; simp [hv]
  · intro hmem
    unfold merge_leaves
    dsimp only
    split
    · rfl
    · cases hfind : (orderedUnique ids).find? (fun i => ! g.isValidItem i) with
      | some bad => simp only [hfind]
      | none =>
        exfalso
        have := List.find?_eq_none.mp hfind id
          ((mem_orderedUnique ids id).mpr hmem)
        simp [hv] at this

theorem C10_total_validity_witness :
    ((0 : Int) < 0 ∨ (((⟨[], []⟩ : GenGraph).item_nodes.length : Int) ≤ 0)) ∧
    (((⟨[], []⟩ : GenGraph).expand 0 ⟨[], [], "M", "", ""⟩).1 = false ∧
     ((⟨[], []⟩ : GenGraph).scale_connected_component 0 5).1 = false ∧
     ((0 : Int) ∈ ([0] : List Int) →
       ((⟨[], []⟩ : GenGraph).merge_leaves [0]).1 = false)) :=
  ⟨Or.inr (by simp),
   C10_total_validity ⟨[], []⟩ 0 ⟨[], [], "M", "", ""⟩ 5 [0] (Or.inr (by simp))⟩

/-- Claim C4: any call to `expand`, `scale_connected_component` or `merge_leaves`
that returns a failure flag leaves the graph (both node sequences,
value-wise) exactly as it was before the call. -/
theorem C4_failure_preserves_graph (g : GenGraph) (id : Int) (r : Recipe)
    (t : ℚ) (ids : List Int) :
    ((g.expand id r).1 = false → (g.expand id r).2.2 = g) ∧
    ((g.scale_connected_component id t).1 = false →
      (g.scale_connected_component id t).2.2 = g) ∧
    ((g.merge_leaves ids).1 = false → (g.merge_leaves ids).2.2 = g) :=
  ⟨expand_graph_of_fail g id r, scale_graph_of_fail g id t,
   merge_graph_of_fail g ids⟩

theorem C4_failure_preserves_graph_witness :
    ((⟨[], []⟩ : GenGraph).expand 0 ⟨[], [], "M", "", ""⟩).1 = false ∧
    ((⟨[], []⟩ : GenGraph).expand 0 ⟨[], [], "M", "", ""⟩).2.2 = ⟨[], []⟩ ∧
    ((⟨[], []⟩ : GenGraph).merge_leaves [7]).2.2 = ⟨[], []⟩ :=
  ⟨rfl,
   (C4_failure_preserves_graph ⟨[], []⟩ 0 ⟨[], [], "M", "", ""⟩ 5 [7]).1 rfl,
   (C4_failure_preserves_graph ⟨[], []⟩ 0 ⟨[], [], "M", "", ""⟩ 5 [7]).2.2 rfl⟩

end GenGraph
end Planner

namespace Planner
namespace GenGraph

theorem length_filter_range (l : List (String × ℚ)) (q : String × ℚ → Bool) :
    ((List.range l.length).filter fun i => q (l.getD i default)).length =
      l.countP q := by
  induction l with
  | nil => simp
  | cons a t ih =>
    rw [List.length_cons, List.range_succ_eq_map, List.filter_cons,
      List.filter_map]
    have he : ((List.range t.length).filter
        ((fun i => q ((a :: t).getD i default)) ∘ Nat.succ)) =
        (List.range t.length).filter (fun i => q (t.getD i default)) :=
      List.filter_congr (fun x _ => rfl)
    rw [he, List.countP_cons]
    by_cases hq : q a = true
    · rw [if_pos (show q ((a :: t).getD 0 default) = true from hq)]
      rw [List.length_cons, List.length_map, ih, if_pos hq]
    · rw [if_neg (show ¬ q ((a :: t).getD 0 default) = true from hq)]
      rw [List.length_map, ih, if_neg hq, Nat.add_zero]

end GenGraph
end Planner

namespace Planner
namespace GenGraph

/-- Claim C8: on a valid, active, producer-less item node, `expand` fails with
the "does not produce this item" message when the item's name occurs in
none of the recipe's output slots, and fails as ambiguous when it occurs
in two or more output slots — it never picks the first match. -/
theorem C8_output_match_errors (g : GenGraph) (id : Int) (r : Recipe)
    (hv : g.isValidItem id = true)
    (hp : (g.producersOf id).length = 0) :
    (r.outs.countP
        (fun p => p.1 = (g.item_nodes.getD id.toNat default).name) = 0 →
      g.expand id r = (false, .notProduced, g)) ∧
    (2 ≤ r.outs.countP
        (fun p => p.1 = (g.item_nodes.getD id.toNat default).name) →
      g.expand id r = (false, .duplicatedOutputs, g)) := by
  have hlen := length_filter_range r.outs
    (fun p => decide (p.1 = (g.item_nodes.getD id.toNat default).name))
  constructor <;> intro hcnt <;>
    · unfold expand
      rw [if_neg (by simp [hv])]
      rw [if_neg (by simp [hp])]
      dsimp only
      first
      | · rw [if_pos (by rw [hlen]; exact hcnt)]
      | · rw [if_neg (by rw [hlen]; omega)]
          rw [if_pos (by rw [hlen]; omega)]
end GenGraph
end Planner

namespace Planner
namespace GenGraph

theorem expandIns_eq (m : ℚ) (l : List (String × ℚ)) (items : List ItemNode)
    (ids : List Int) :
    expandIns m l items ids =
      (items ++ l.map (fun p => { name := p.1, rate := m * p.2, active := true }),
       ids ++ (List.range' items.length l.length).map Int.ofNat) := by
  induction l generalizing items ids with
  | nil => simp [expandIns]
  | cons p rest ih =>
    rw [expandIns, ih]
    simp [List.range'_succ, List.append_assoc]

theorem expandOuts_append (id : Int) (op : Nat) (m : ℚ)
    (l₁ l₂ : List (String × ℚ)) (i : Nat) (items : List ItemNode)
    (ids : List Int) :
    expandOuts id op m i (l₁ ++ l₂) items ids =
      expandOuts id op m (i + l₁.length) l₂
        (expandOuts id op m i l₁ items ids).1
        (expandOuts id op m i l₁ items ids).2 := by
  induction l₁ generalizing i items ids with
  | nil => simp [expandOuts]
  | cons p rest ih =>
    rw [List.cons_append, expandOuts, expandOuts]
    by_cases h : i = op
    · rw [if_pos h, if_pos h, ih]
      have hl : i + 1 + rest.length = i + (rest.length + 1) := by omega
      rw [hl, List.length_cons]
    · rw [if_neg h, if_neg h, ih]
      have hl : i + 1 + rest.length = i + (rest.length + 1) := by omega
      rw [hl, List.length_cons]

theorem expandOuts_skip (id : Int) (op : Nat) (m : ℚ)
    (l : List (String × ℚ)) (i : Nat) (items : List ItemNode)
    (ids : List Int) (h : op < i) :
    expandOuts id op m i l items ids =
      (items ++ l.map (fun p => { name := p.1, rate := m * p.2, active := true }),
       ids ++ (List.range' items.length l.length).map Int.ofNat) := by
  induction l generalizing i items ids with
  | nil => simp [expandOuts]
  | cons p rest ih =>
    rw [expandOuts, if_neg (by omega)]
    rw [ih _ _ _ (by omega)]
    simp [List.range'_succ, List.append_assoc]

theorem expandOuts_pre (id : Int) (op : Nat) (m : ℚ)
    (l : List (String × ℚ)) (i : Nat) (items : List ItemNode)
    (ids : List Int) (h : i + l.length ≤ op) :
    expandOuts id op m i l items ids =
      (items ++ l.map (fun p => { name := p.1, rate := m * p.2, active := true }),
       ids ++ (List.range' items.length l.length).map Int.ofNat) := by
  induction l generalizing i items ids with
  | nil => simp [expandOuts]
  | cons p rest ih =>
    rw [expandOuts, if_neg (by simp at h; omega)]
    rw [ih _ _ _ (by simp at h ⊢; omega)]
    simp [List.range'_succ, List.append_assoc]

end GenGraph
end Planner

namespace Planner
namespace GenGraph

theorem expandOuts_full (id : Int) (op : Nat) (m : ℚ)
    (outs : List (String × ℚ)) (items : List ItemNode)
    (hop : op < outs.length) :
    expandOuts id op m 0 outs items [] =
      (items ++ (outs.take op ++ outs.drop (op + 1)).map
         (fun p => { name := p.1, rate := m * p.2, active := true }),
       (List.range' items.length op).map Int.ofNat ++ [id] ++
         (List.range' (items.length + op) (outs.length - (op + 1))).map
           Int.ofNat) := by
  have htake : (outs.take op).length = op :=
    List.length_take_of_le (le_of_lt hop)
  have hsplit : outs = outs.take op ++ (outs.getD op default :: outs.drop (op + 1)) := by
    conv_lhs => rw [← List.take_append_drop op outs]
    congr 1
    rw [List.getD_eq_getElem outs default hop]
    exact (List.getElem_cons_drop outs op hop).symm
  conv_lhs => rw [hsplit]
  rw [expandOuts_append]
  rw [expandOuts_pre id op m _ 0 items [] (by simp [htake])]
  simp only [htake, Nat.zero_add]
  rw [expandOuts, if_pos rfl]
  rw [expandOuts_skip id op m _ (op + 1) _ _ (by omega)]
  simp only [List.length_append, List.length_map, List.length_drop, List.map_append]
  rw [htake]
  simp [List.append_assoc]

end GenGraph
end Planner

namespace Planner
namespace GenGraph

theorem expand_success_spec (g : GenGraph) (id : Int) (r : Recipe)
    (h : (g.expand id r).1 = true) :
    ∃ op : Nat,
      g.isValidItem id = true ∧
      (g.producersOf id).length = 0 ∧
      op < r.outs.length ∧
      (r.outs.getD op default).1 = (g.item_nodes.getD id.toNat default).name ∧
      op = ((List.range r.outs.length).filter fun i =>
        (r.outs.getD i default).1 =
          (g.item_nodes.getD id.toNat default).name).headD 0 ∧
      ((List.range r.outs.length).filter fun i =>
        (r.outs.getD i default).1 =
          (g.item_nodes.getD id.toNat default).name).length = 1 ∧
      0 < (r.outs.getD op default).2 ∧
      0 < (g.item_nodes.getD id.toNat default).rate / (r.outs.getD op default).2 ∧
      g.expand id r =
        (true, .expanded,
          { item_nodes := g.item_nodes ++
              ((r.outs.take op ++ r.outs.drop (op + 1)) ++ r.ins).map
                (fun p =>
                  { name := p.1,
                    rate := (g.item_nodes.getD id.toNat default).rate /
                      (r.outs.getD op default).2 * p.2,
                    active := true }),
            recipe_nodes := g.recipe_nodes ++
              [{ recipe := r,
                 machines := (g.item_nodes.getD id.toNat default).rate /
                   (r.outs.getD op default).2,
                 machine_name := r.machine_name,
                 in_ids := (List.range'
                     (g.item_nodes.length + op + (r.outs.length - (op + 1)))
                     r.ins.length).map Int.ofNat,
                 out_ids := (List.range' g.item_nodes.length op).map Int.ofNat ++
                   [id] ++
                   (List.range' (g.item_nodes.length + op)
                     (r.outs.length - (op + 1))).map Int.ofNat,
                 active := true }] }) := by
  unfold expand at h ⊢
  by_cases c1 : g.isValidItem id = true
  case neg => rw [if_pos (by simp [c1])] at h; simp at h
  rw [if_neg (by simp [c1])] at h ⊢
  by_cases c2 : (g.producersOf id).length > 0
  case pos => rw [if_pos c2] at h; simp at h
  rw [if_neg c2] at h ⊢
  dsimp only at h ⊢
  by_cases c3 : ((List.range r.outs.length).filter fun i =>
      (r.outs.getD i default).1 =
        (g.item_nodes.getD id.toNat default).name).length = 0
  case pos => rw [if_pos c3] at h; simp at h
  rw [if_neg c3] at h ⊢
  by_cases c4 : ((List.range r.outs.length).filter fun i =>
      (r.outs.getD i default).1 =
        (g.item_nodes.getD id.toNat default).name).length > 1
  case pos => rw [if_pos c4] at h; simp at h
  rw [if_neg c4] at h ⊢
  set op := ((List.range r.outs.length).filter fun i =>
    (r.outs.getD i default).1 =
      (g.item_nodes.getD id.toNat default).name).headD 0 with hop_def
  by_cases c5 : (r.outs.getD op default).2 ≤ 0
  case pos => rw [if_pos c5] at h; simp at h
  rw [if_neg c5] at h ⊢
  by_cases c6 : (g.item_nodes.getD id.toNat default).rate /
      (r.outs.getD op default).2 ≤ 0
  case pos => rw [if_pos c6] at h; simp at h
  rw [if_neg c6] at h ⊢
  -- op is a genuine matching index
  have hne : ((List.range r.outs.length).filter fun i =>
      (r.outs.getD i default).1 =
        (g.item_nodes.getD id.toNat default).name) ≠ [] := by
    intro hnil
    rw [hnil] at c3
    simp at c3
  obtain ⟨a, t, hl⟩ := List.exists_cons_of_ne_nil hne
  have hmem : op ∈ (List.range r.outs.length).filter fun i =>
      (r.outs.getD i default).1 = (g.item_nodes.getD id.toNat default).name := by
    rw [hop_def, hl]
    simp
  have hfacts := List.mem_filter.mp hmem
  have hoplt : op < r.outs.length := List.mem_range.mp hfacts.1
  have hname : (r.outs.getD op default).1 =
      (g.item_nodes.getD id.toNat default).name := by
    have := hfacts.2
    simpa using this
  refine ⟨op, c1, by omega, hoplt, hname, hop_def, by omega, by linarith, by linarith, ?_⟩
  rw [expandOuts_full id op _ r.outs g.item_nodes hoplt]
  rw [expandIns_eq]
  simp only [List.length_append, List.length_map, List.length_take,
    List.length_drop, List.map_append]
  have harith : g.item_nodes.length +
      (op ⊓ r.outs.length + (r.outs.length - (op + 1))) =
      g.item_nodes.length + op + (r.outs.length - (op + 1)) := by
    rw [Nat.min_eq_left (le_of_lt hoplt)]
    omega
  rw [harith]
  simp [List.append_assoc]

end GenGraph
end Planner

namespace Planner
namespace GenGraph

theorem isValidItem_iff (g : GenGraph) (id : Int) :
    g.isValidItem id = true ↔
      0 ≤ id ∧ id < (g.item_nodes.length : Int) ∧
        (g.item_nodes.getD id.toNat default).active = true := by
  unfold isValidItem
  simp [and_assoc]

theorem items_append_map_getD (N : List ItemNode) (L : List (String × ℚ))
    (m : ℚ) (j : Nat) (hj : j < L.length) :
    (N ++ L.map (fun p =>
        ({ name := p.1, rate := m * p.2, active := true } : ItemNode))).getD
      (N.length + j) default =
      { name := (L.getD j default).1, rate := m * (L.getD j default).2,
        active := true } := by
  rw [List.getD_append_right _ _ _ _ (by omega), Nat.add_sub_cancel_left]
  rw [List.getD_eq_getElem _ _ (by simpa using hj), List.getElem_map]
  rw [List.getD_eq_getElem _ _ hj]

end GenGraph
end Planner

namespace Planner
namespace GenGraph

theorem inIds_getD (s len i : Nat) (hi : i < len) :
    ((List.range' s len).map Int.ofNat).getD i 0 = ((s + i : Nat) : Int) := by
  rw [List.getD_eq_getElem _ _ (by simpa using hi), List.getElem_map,
    List.getElem_range'_1]
  rfl

theorem outIds_getD_matched (n0 op blen : Nat) (id : Int) :
    (((List.range' n0 op).map Int.ofNat ++ [id]) ++
      (List.range' (n0 + op) blen).map Int.ofNat).getD op 0 = id := by
  rw [List.getD_append _ _ _ _ (by simp)]
  rw [List.getD_append_right _ _ _ _ (by simp)]
  simp

theorem outIds_getD_lt (n0 op blen : Nat) (id : Int) (i : Nat) (hi : i < op) :
    (((List.range' n0 op).map Int.ofNat ++ [id]) ++
      (List.range' (n0 + op) blen).map Int.ofNat).getD i 0 =
      ((n0 + i : Nat) : Int) := by
  rw [List.getD_append _ _ _ _ (by simp; omega)]
  rw [List.getD_append _ _ _ _ (by simpa using hi)]
  exact inIds_getD n0 op i hi

theorem outIds_getD_gt (n0 op blen : Nat) (id : Int) (i : Nat)
    (h1 : op < i) (h2 : i < op + 1 + blen) :
    (((List.range' n0 op).map Int.ofNat ++ [id]) ++
      (List.range' (n0 + op) blen).map Int.ofNat).getD i 0 =
      ((n0 + op + (i - (op + 1)) : Nat) : Int) := by
  rw [List.getD_append_right _ _ _ _ (by simp; omega)]
  have : i - (List.map Int.ofNat (List.range' n0 op) ++ [id]).length =
      i - (op + 1) := by simp
  rw [this]
  exact inIds_getD _ _ _ (by omega)

end GenGraph
end Planner

namespace Planner
namespace GenGraph

theorem take_drop_getD_lt (l : List (String × ℚ)) (op j : Nat)
    (hj : j < op) (hop : op < l.length) :
    (l.take op ++ l.drop (op + 1)).getD j default = l.getD j default := by
  rw [List.getD_append _ _ _ _ (by simp; omega)]
  rw [List.getD_eq_getElem _ _ (by simp; omega), List.getElem_take]
  rw [List.getD_eq_getElem _ _ (by omega)]

theorem take_drop_getD_ge (l : List (String × ℚ)) (op j : Nat)
    (hj : op ≤ j) (hful : j + 1 < l.length) :
    (l.take op ++ l.drop (op + 1)).getD j default = l.getD (j + 1) default := by
  have hople : op ≤ l.length := by omega
  rw [List.getD_append_right _ _ _ _ (by simp; omega)]
  rw [List.getD_eq_getElem _ _ (by simp [Nat.min_eq_left hople]; omega),
    List.getElem_drop]
  rw [List.getD_eq_getElem _ _ (by omega)]
  congr 1
  simp [Nat.min_eq_left hople]
  omega

end GenGraph
end Planner

namespace Planner
namespace GenGraph

/-- Claim C1: postconditions of every successful `expand` call: the new recipe
node's machine count is the expanded item's rate divided by the matched
output slot's declared rate; the expanded item's id is reused as exactly
the matched output slot's entry of the new node's `out_ids`; and every
newly appended item node — one per non-matched output slot and one per
input slot — carries rate `machines * declared_rate` for its slot. -/
theorem C1_expand_post (g : GenGraph) (id : Int) (r : Recipe)
    (h : (g.expand id r).1 = true) :
    ∃ (op : Nat) (rn : RecipeNode),
      op < r.outs.length ∧
      (r.outs.getD op default).1 = (g.item_nodes.getD id.toNat default).name ∧
      (g.expand id r).2.2.recipe_nodes = g.recipe_nodes ++ [rn] ∧
      rn.machines = (g.item_nodes.getD id.toNat default).rate /
        (r.outs.getD op default).2 ∧
      rn.out_ids.getD op 0 = id ∧
      (∀ i, i < r.outs.length → i ≠ op → rn.out_ids.getD i 0 ≠ id) ∧
      (g.expand id r).2.2.item_nodes.length =
        g.item_nodes.length + (r.outs.length - 1) + r.ins.length ∧
      (∀ j, j < g.item_nodes.length →
        (g.expand id r).2.2.item_nodes.getD j default =
          g.item_nodes.getD j default) ∧
      (∀ i, i < r.outs.length → i ≠ op →
        ∃ k : Nat, rn.out_ids.getD i 0 = (k : Int) ∧
          g.item_nodes.length ≤ k ∧
          (g.expand id r).2.2.item_nodes.getD k default =
            { name := (r.outs.getD i default).1,
              rate := rn.machines * (r.outs.getD i default).2,
              active := true }) ∧
      (∀ i, i < r.ins.length →
        ∃ k : Nat, rn.in_ids.getD i 0 = (k : Int) ∧
          g.item_nodes.length ≤ k ∧
          (g.expand id r).2.2.item_nodes.getD k default =
            { name := (r.ins.getD i default).1,
              rate := rn.machines * (r.ins.getD i default).2,
              active := true }) := by
  obtain ⟨op, hvalid, hprod, hoplt, hname, hhd, hlen1, hpos, hmpos, heq⟩ :=
    expand_success_spec g id r h
  obtain ⟨hid_nonneg, hid_lt, _⟩ := (isValidItem_iff g id).mp hvalid
  have hLlen : ((r.outs.take op ++ r.outs.drop (op + 1)) ++ r.ins).length =
      (r.outs.length - 1) + r.ins.length := by
    simp [Nat.min_eq_left (le_of_lt hoplt)]
    omega
  refine ⟨op,
    { recipe := r,
      machines := (g.item_nodes.getD id.toNat default).rate /
        (r.outs.getD op default).2,
      machine_name := r.machine_name,
      in_ids := (List.range'
          (g.item_nodes.length + op + (r.outs.length - (op + 1)))
          r.ins.length).map Int.ofNat,
      out_ids := (List.range' g.item_nodes.length op).map Int.ofNat ++ [id] ++
        (List.range' (g.item_nodes.length + op)
          (r.outs.length - (op + 1))).map Int.ofNat,
      active := true },
    hoplt, hname, by rw [heq], rfl, ?_, ?_, ?_, ?_, ?_, ?_⟩
  · exact outIds_getD_matched g.item_nodes.length op _ id
  · intro i hi hne
    rcases Nat.lt_or_ge i op with hlt | hge
    · rw [outIds_getD_lt _ _ _ _ _ hlt]
      intro hc
      rw [← hc] at hid_lt
      simp at hid_lt
      omega
    · have hgt : op < i := by omega
      rw [outIds_getD_gt _ _ _ _ _ hgt (by omega)]
      intro hc
      rw [← hc] at hid_lt
      simp at hid_lt
      omega
  · rw [heq]
    simp only [List.length_append, List.length_map, List.length_take,
      List.length_drop, Nat.min_eq_left (le_of_lt hoplt)]
    omega
  · intro j hj
    rw [heq]
    exact List.getD_append _ _ _ _ hj
  · intro i hi hne
    rcases Nat.lt_or_ge i op with hlt | hge
    · refine ⟨g.item_nodes.length + i, outIds_getD_lt _ _ _ _ _ hlt,
        by omega, ?_⟩
      rw [heq]
      have hiL : i < ((r.outs.take op ++ r.outs.drop (op + 1)) ++ r.ins).length := by
        rw [hLlen]; omega
      rw [items_append_map_getD _ _ _ _ hiL]
      have hslot : ((r.outs.take op ++ r.outs.drop (op + 1)) ++ r.ins).getD i
          default = r.outs.getD i default := by
        rw [List.getD_append _ _ _ _ (by simp [Nat.min_eq_left (le_of_lt hoplt)]; omega)]
        exact take_drop_getD_lt r.outs op i hlt hoplt
      rw [hslot]
    · have hgt : op < i := by omega
      refine ⟨g.item_nodes.length + op + (i - (op + 1)),
        outIds_getD_gt _ _ _ _ _ hgt (by omega), by omega, ?_⟩
      rw [heq]
      have hk : g.item_nodes.length + op + (i - (op + 1)) =
          g.item_nodes.length + (i - 1) := by omega
      rw [hk]
      have hiL : i - 1 <
          ((r.outs.take op ++ r.outs.drop (op + 1)) ++ r.ins).length := by
        rw [hLlen]; omega
      rw [items_append_map_getD _ _ _ _ hiL]
      have hslot : ((r.outs.take op ++ r.outs.drop (op + 1)) ++ r.ins).getD
          (i - 1) default = r.outs.getD i default := by
        rw [List.getD_append _ _ _ _ (by simp [Nat.min_eq_left (le_of_lt hoplt)]; omega)]
        rw [take_drop_getD_ge r.outs op (i - 1) (by omega) (by omega)]
        congr 1
        omega
      rw [hslot]
  · intro i hi
    refine ⟨g.item_nodes.length + op + (r.outs.length - (op + 1)) + i,
      inIds_getD _ _ _ hi, by omega, ?_⟩
    rw [heq]
    have hk : g.item_nodes.length + op + (r.outs.length - (op + 1)) + i =
        g.item_nodes.length + ((r.outs.length - 1) + i) := by omega
    rw [hk]
    have hiL : (r.outs.length - 1) + i <
        ((r.outs.take op ++ r.outs.drop (op + 1)) ++ r.ins).length := by
      rw [hLlen]; omega
    rw [items_append_map_getD _ _ _ _ hiL]
    have hslot : ((r.outs.take op ++ r.outs.drop (op + 1)) ++ r.ins).getD
        ((r.outs.length - 1) + i) default = r.ins.getD i default := by
      rw [List.getD_append_right _ _ _ _
        (by simp [Nat.min_eq_left (le_of_lt hoplt)]; omega)]
      congr 1
      simp [Nat.min_eq_left (le_of_lt hoplt)]
      omega
    rw [hslot]

end GenGraph
end Planner

namespace Planner

namespace GenGraph

theorem C1_expand_post_witness :
    (exG1.expand 0 exR1).1 = true ∧
    (∃ (op : Nat) (rn : RecipeNode),
      op < exR1.outs.length ∧
      (exR1.outs.getD op default).1 =
        (exG1.item_nodes.getD (0 : Int).toNat default).name ∧
      (exG1.expand 0 exR1).2.2.recipe_nodes = exG1.recipe_nodes ++ [rn] ∧
      rn.machines = (exG1.item_nodes.getD (0 : Int).toNat default).rate /
        (exR1.outs.getD op default).2 ∧
      rn.out_ids.getD op 0 = 0 ∧
      (∀ i, i < exR1.outs.length → i ≠ op → rn.out_ids.getD i 0 ≠ 0) ∧
      (exG1.expand 0 exR1).2.2.item_nodes.length =
        exG1.item_nodes.length + (exR1.outs.length - 1) + exR1.ins.length ∧
      (∀ j, j < exG1.item_nodes.length →
        (exG1.expand 0 exR1).2.2.item_nodes.getD j default =
          exG1.item_nodes.getD j default) ∧
      (∀ i, i < exR1.outs.length → i ≠ op →
        ∃ k : Nat, rn.out_ids.getD i 0 = (k : Int) ∧
          exG1.item_nodes.length ≤ k ∧
          (exG1.expand 0 exR1).2.2.item_nodes.getD k default =
            { name := (exR1.outs.getD i default).1,
              rate := rn.machines * (exR1.outs.getD i default).2,
              active := true }) ∧
      (∀ i, i < exR1.ins.length →
        ∃ k : Nat, rn.in_ids.getD i 0 = (k : Int) ∧
          exG1.item_nodes.length ≤ k ∧
          (exG1.expand 0 exR1).2.2.item_nodes.getD k default =
            { name := (exR1.ins.getD i default).1,
              rate := rn.machines * (exR1.ins.getD i default).2,
              active := true })) :=
  ⟨by norm_num [exG1, exR1, expand, isValidItem, producersOf,
      List.range_succ, List.filter], C1_expand_post exG1 0 exR1 (by
    norm_num [exG1, exR1, expand, isValidItem, producersOf,
      List.range_succ, List.filter])⟩

end GenGraph
end Planner





namespace Planner
namespace GenGraph

theorem merge_success_spec (g : GenGraph) (ids : List Int)
    (h : (g.merge_leaves ids).1 = true) :
    2 ≤ (orderedUnique ids).length ∧
    (∀ i ∈ orderedUnique ids, g.isValidItem i = true) ∧
    (∀ i ∈ orderedUnique ids, (g.producersOf i).length = 0 ∧
      (g.consumersOf i).length ≠ 0) ∧
    ((orderedUnique ids).map fun i =>
      (g.item_nodes.getD i.toNat default).name).dedup.length = 1 ∧
    g.merge_leaves ids =
      (true,
        .merged ((orderedUnique ids).headD 0)
          ((((orderedUnique ids).tail.foldl
              (fun acc i => acc.set i.toNat
                { acc.getD i.toNat default with active := false })
              (g.item_nodes.set ((orderedUnique ids).headD 0).toNat
                { g.item_nodes.getD ((orderedUnique ids).headD 0).toNat default
                  with rate := ((orderedUnique ids).map fun i =>
                    (g.item_nodes.getD i.toNat default).rate).sum }))).getD
            ((orderedUnique ids).headD 0).toNat default).name
          (((orderedUnique ids).map fun i =>
            (g.item_nodes.getD i.toNat default).rate).sum),
        { item_nodes := (orderedUnique ids).tail.foldl
            (fun acc i => acc.set i.toNat
              { acc.getD i.toNat default with active := false })
            (g.item_nodes.set ((orderedUnique ids).headD 0).toNat
              { g.item_nodes.getD ((orderedUnique ids).headD 0).toNat default
                with rate := ((orderedUnique ids).map fun i =>
                  (g.item_nodes.getD i.toNat default).rate).sum }),
          recipe_nodes := g.recipe_nodes.map fun rn =>
            if rn.active = true then
              { rn with in_ids := rn.in_ids.map fun i =>
                  if i ∈ (orderedUnique ids).tail
                  then (orderedUnique ids).headD 0 else i }
            else rn }) := by
  unfold merge_leaves at h ⊢
  dsimp only at h ⊢
  by_cases c1 : (orderedUnique ids).length < 2
  case pos => rw [if_pos c1] at h; simp at h
  rw [if_neg c1] at h ⊢
  cases hfind : (orderedUnique ids).find? (fun i => ! g.isValidItem i) with
  | some bad => rw [hfind] at h; simp at h
  | none =>
  rw [hfind] at h
  dsimp only at h ⊢
  by_cases c3 : ((orderedUnique ids).map fun i =>
      (g.item_nodes.getD i.toNat default).name).dedup.length ≠ 1
  case pos => rw [if_pos c3] at h; simp at h
  rw [if_neg c3] at h ⊢
  cases hfind2 : (orderedUnique ids).find? (fun i =>
      decide (0 < (g.producersOf i).length) ||
      decide ((g.consumersOf i).length = 0)) with
  | some bad =>
    rw [hfind2] at h
    dsimp only at h
    by_cases hb : 0 < (g.producersOf bad).length
    · rw [if_pos hb] at h; simp at h
    · rw [if_neg hb] at h; simp at h
  | none =>
  rw [hfind2] at h
  dsimp only at h ⊢
  have hvalid : ∀ i ∈ orderedUnique ids, g.isValidItem i = true := by
    intro i hi
    have := List.find?_eq_none.mp hfind i hi
    simpa using this
  have hleaf : ∀ i ∈ orderedUnique ids, (g.producersOf i).length = 0 ∧
      (g.consumersOf i).length ≠ 0 := by
    intro i hi
    have := List.find?_eq_none.mp hfind2 i hi
    simp at this
    obtain ⟨h1, h2⟩ := this
    refine ⟨?_, fun hc => h2 (List.length_eq_zero.mp hc)⟩
    rw [List.length_eq_zero]
    exact h1
  exact ⟨by omega, hvalid, hleaf, by omega, rfl⟩

end GenGraph
end Planner

namespace Planner
namespace GenGraph

theorem deactivate_length (ids : List Int) (items : List ItemNode) :
    (ids.foldl (fun acc i => acc.set i.toNat
      { acc.getD i.toNat default with active := false }) items).length =
      items.length := by
  induction ids generalizing items with
  | nil => rfl
  | cons i t ih => rw [List.foldl_cons, ih, List.length_set]

theorem deactivate_getD (ids : List Int) (items : List ItemNode) (j : Nat)
    (hnodup : ids.Nodup) (hnn : ∀ i ∈ ids, 0 ≤ i) (hj : j < items.length) :
    (ids.foldl (fun acc i => acc.set i.toNat
        { acc.getD i.toNat default with active := false }) items).getD j
      default =
      if (j : Int) ∈ ids
      then { items.getD j default with active := false }
      else items.getD j default := by
  induction ids generalizing items with
  | nil => simp
  | cons i t ih =>
    rw [List.foldl_cons]
    have hnn' : ∀ x ∈ t, 0 ≤ x := fun x hx => hnn x (List.mem_cons_of_mem i hx)
    have hlen : (items.set i.toNat
        { items.getD i.toNat default with active := false }).length =
        items.length := List.length_set items i.toNat _
    rw [ih (items.set i.toNat
        { items.getD i.toNat default with active := false })
      hnodup.of_cons hnn' (by rw [hlen]; exact hj)]
    by_cases hji : (j : Int) = i
    · have hi0 : 0 ≤ i := hnn i (List.mem_cons_self i t)
      have hjt : j = i.toNat := by omega
      have hjnott : (j : Int) ∉ t := by
        rw [hji]
        exact (List.nodup_cons.mp hnodup).1
      rw [if_neg hjnott, if_pos (by simp [hji])]
      subst hjt
      rw [List.getD_eq_getElem _ _ (by rw [hlen]; exact hj),
        List.getElem_set_self]
    · have hjne : j ≠ i.toNat := by
        intro hc
        apply hji
        have := hnn i (List.mem_cons_self i t)
        omega
      have hgd : (items.set i.toNat
          { items.getD i.toNat default with active := false }).getD j
          default = items.getD j default := by
        rw [List.getD_eq_getElem _ _ (by rw [hlen]; exact hj),
          List.getD_eq_getElem _ _ hj]
        exact List.getElem_set_ne (fun hc => hjne hc.symm) _
      rw [hgd]
      by_cases hjt : (j : Int) ∈ t
      · rw [if_pos hjt, if_pos (List.mem_cons_of_mem i hjt)]
      · rw [if_neg hjt, if_neg (by simp [hji, hjt])]

theorem getD_map {α β : Type} [Inhabited α] [Inhabited β] (f : α → β)
    (l : List α) (j : Nat) (h : j < l.length) :
    (l.map f).getD j default = f (l.getD j default) := by
  rw [List.getD_eq_getElem _ _ (by simpa using h), List.getElem_map,
    List.getD_eq_getElem _ _ h]

theorem headD_mem_of_ne (l : List Int) (h : l ≠ []) (d : Int) :
    l.headD d ∈ l := by
  cases l with
  | nil => exact absurd rfl h
  | cons a t => simp

theorem headD_not_mem_tail (l : List Int) (hnd : l.Nodup) (d : Int) :
    l.headD d ∉ l.tail := by
  cases l with
  | nil => simp
  | cons a t =>
    simp only [List.headD_cons, List.tail_cons]
    exact (List.nodup_cons.mp hnd).1

/-- Claim C3: postconditions of every successful `merge_leaves` call: the
survivor is the first id of the order-preserving de-duplication of the
argument list; its rate becomes the sum of all merged nodes' original
rates; every active recipe node's `in_ids` gets each dropped id rewritten
to the survivor while `out_ids` stay untouched; and every non-surviving
merged node is deactivated. -/
theorem C3_merge_post (g : GenGraph) (ids : List Int)
    (h : (g.merge_leaves ids).1 = true) :
    (g.merge_leaves ids).2.1 =
      .merged ((orderedUnique ids).headD 0)
        (g.item_nodes.getD ((orderedUnique ids).headD 0).toNat default).name
        (((orderedUnique ids).map fun i =>
          (g.item_nodes.getD i.toNat default).rate).sum) ∧
    ((g.merge_leaves ids).2.2.item_nodes.getD
        ((orderedUnique ids).headD 0).toNat default).rate =
      ((orderedUnique ids).map fun i =>
        (g.item_nodes.getD i.toNat default).rate).sum ∧
    ((g.merge_leaves ids).2.2.item_nodes.getD
        ((orderedUnique ids).headD 0).toNat default).active = true ∧
    (∀ i ∈ (orderedUnique ids).tail,
      ((g.merge_leaves ids).2.2.item_nodes.getD i.toNat default).active =
        false) ∧
    (∀ rid, rid < g.recipe_nodes.length →
      ((g.merge_leaves ids).2.2.recipe_nodes.getD rid default).out_ids =
        (g.recipe_nodes.getD rid default).out_ids) ∧
    (∀ rid, rid < g.recipe_nodes.length →
      (g.recipe_nodes.getD rid default).active = true →
      ((g.merge_leaves ids).2.2.recipe_nodes.getD rid default).in_ids =
        (g.recipe_nodes.getD rid default).in_ids.map fun i =>
          if i ∈ (orderedUnique ids).tail
          then (orderedUnique ids).headD 0 else i) := by
  obtain ⟨hlen2, hvalid, _hleaf, _hnames, heq⟩ := merge_success_spec g ids h
  have hne : orderedUnique ids ≠ [] := by
    intro hc
    rw [hc] at hlen2
    simp at hlen2
  have hkeepmem := headD_mem_of_ne _ hne 0
  obtain ⟨hk0, hklt, hkact⟩ :=
    (isValidItem_iff g _).mp (hvalid _ hkeepmem)
  have hkeepnat : (((orderedUnique ids).headD 0).toNat : Int) =
      (orderedUnique ids).headD 0 := Int.toNat_of_nonneg hk0
  have hknatlt : ((orderedUnique ids).headD 0).toNat < g.item_nodes.length := by
    omega
  have htail_nodup : (orderedUnique ids).tail.Nodup :=
    (nodup_orderedUnique ids).tail
  have htail_nn : ∀ i ∈ (orderedUnique ids).tail, 0 ≤ i := fun i hi =>
    ((isValidItem_iff g i).mp (hvalid i (List.mem_of_mem_tail hi))).1
  have hkeepnot : (orderedUnique ids).headD 0 ∉ (orderedUnique ids).tail :=
    headD_not_mem_tail _ (nodup_orderedUnique ids) 0
  have hlen1 : (g.item_nodes.set ((orderedUnique ids).headD 0).toNat
      { g.item_nodes.getD ((orderedUnique ids).headD 0).toNat default with
        rate := ((orderedUnique ids).map fun i =>
          (g.item_nodes.getD i.toNat default).rate).sum }).length =
      g.item_nodes.length := List.length_set _ _ _
  -- the surviving node after both item updates
  have hkeepnode : (((orderedUnique ids).tail.foldl
      (fun acc i => acc.set i.toNat
        { acc.getD i.toNat default with active := false })
      (g.item_nodes.set ((orderedUnique ids).headD 0).toNat
        { g.item_nodes.getD ((orderedUnique ids).headD 0).toNat default with
          rate := ((orderedUnique ids).map fun i =>
            (g.item_nodes.getD i.toNat default).rate).sum })).getD
      ((orderedUnique ids).headD 0).toNat default) =
      { g.item_nodes.getD ((orderedUnique ids).headD 0).toNat default with
        rate := ((orderedUnique ids).map fun i =>
          (g.item_nodes.getD i.toNat default).rate).sum } := by
    rw [deactivate_getD _ _ _
      htail_nodup htail_nn (by rw [hlen1]; exact hknatlt)]
    rw [if_neg (by rw [hkeepnat]; exact hkeepnot)]
    rw [List.getD_eq_getElem _ _ (by rw [hlen1]; exact hknatlt),
      List.getElem_set_self]
  refine ⟨?_, ?_, ?_, ?_, ?_, ?_⟩
  · rw [heq]
    dsimp only
    rw [hkeepnode]
  · rw [heq]
    dsimp only
    rw [hkeepnode]
  · rw [heq]
    dsimp only
    rw [hkeepnode]
    exact hkact
  · intro i hi
    rw [heq]
    dsimp only
    have hi0 : 0 ≤ i := htail_nn i hi
    have hilt : i.toNat < g.item_nodes.length := by
      obtain ⟨_, hlt, _⟩ :=
        (isValidItem_iff g i).mp (hvalid i (List.mem_of_mem_tail hi))
      omega
    rw [deactivate_getD _ _ _
      htail_nodup htail_nn (by rw [hlen1]; exact hilt)]
    rw [if_pos (by rw [Int.toNat_of_nonneg hi0]; exact hi)]
  · intro rid hrid
    rw [heq]
    dsimp only
    rw [getD_map _ _ _ hrid]
    split
    · rfl
    · rfl
  · intro rid hrid hact
    rw [heq]
    dsimp only
    rw [getD_map _ _ _ hrid, if_pos hact]

end GenGraph
end Planner

namespace Planner

namespace GenGraph

theorem C3_merge_post_witness :
    (exG3.merge_leaves [2, 3]).1 = true ∧
    ((exG3.merge_leaves [2, 3]).2.1 =
      .merged ((orderedUnique [2, 3]).headD 0)
        (exG3.item_nodes.getD ((orderedUnique [2, 3]).headD 0).toNat
          default).name
        (((orderedUnique [2, 3]).map fun i =>
          (exG3.item_nodes.getD i.toNat default).rate).sum) ∧
    ((exG3.merge_leaves [2, 3]).2.2.item_nodes.getD
        ((orderedUnique [2, 3]).headD 0).toNat default).rate =
      ((orderedUnique [2, 3]).map fun i =>
        (exG3.item_nodes.getD i.toNat default).rate).sum ∧
    ((exG3.merge_leaves [2, 3]).2.2.item_nodes.getD
        ((orderedUnique [2, 3]).headD 0).toNat default).active = true ∧
    (∀ i ∈ (orderedUnique [2, 3]).tail,
      ((exG3.merge_leaves [2, 3]).2.2.item_nodes.getD i.toNat
        default).active = false) ∧
    (∀ rid, rid < exG3.recipe_nodes.length →
      ((exG3.merge_leaves [2, 3]).2.2.recipe_nodes.getD rid default).out_ids =
        (exG3.recipe_nodes.getD rid default).out_ids) ∧
    (∀ rid, rid < exG3.recipe_nodes.length →
      (exG3.recipe_nodes.getD rid default).active = true →
      ((exG3.merge_leaves [2, 3]).2.2.recipe_nodes.getD rid default).in_ids =
        (exG3.recipe_nodes.getD rid default).in_ids.map fun i =>
          if i ∈ (orderedUnique [2, 3]).tail
          then (orderedUnique [2, 3]).headD 0 else i)) :=
  ⟨by decide, C3_merge_post exG3 [2, 3] (by decide)⟩

end GenGraph
end Planner

namespace Planner
namespace GenGraph

theorem merge_keep_summary (g : GenGraph) (ids : List Int)
    (h : (g.merge_leaves ids).1 = true) :
    ((g.merge_leaves ids).2.2.item_nodes.getD
        ((orderedUnique ids).headD 0).toNat default).rate =
      ((orderedUnique ids).map fun i =>
        (g.item_nodes.getD i.toNat default).rate).sum ∧
    (g.merge_leaves ids).2.1 =
      .merged ((orderedUnique ids).headD 0)
        (g.item_nodes.getD ((orderedUnique ids).headD 0).toNat default).name
        (((orderedUnique ids).map fun i =>
          (g.item_nodes.getD i.toNat default).rate).sum) := by
  obtain ⟨hlen2, hvalid, _hleaf, _hnames, heq⟩ := merge_success_spec g ids h
  have hne : orderedUnique ids ≠ [] := by
    intro hc
    rw [hc] at hlen2
    simp at hlen2
  have hkeepmem := headD_mem_of_ne _ hne 0
  obtain ⟨hk0, hklt, hkact⟩ :=
    (isValidItem_iff g _).mp (hvalid _ hkeepmem)
  have hkeepnat : (((orderedUnique ids).headD 0).toNat : Int) =
      (orderedUnique ids).headD 0 := Int.toNat_of_nonneg hk0
  have hknatlt : ((orderedUnique ids).headD 0).toNat < g.item_nodes.length := by
    omega
  have htail_nodup : (orderedUnique ids).tail.Nodup :=
    (nodup_orderedUnique ids).tail
  have htail_nn : ∀ i ∈ (orderedUnique ids).tail, 0 ≤ i := fun i hi =>
    ((isValidItem_iff g i).mp (hvalid i (List.mem_of_mem_tail hi))).1
  have hkeepnot : (orderedUnique ids).headD 0 ∉ (orderedUnique ids).tail :=
    headD_not_mem_tail _ (nodup_orderedUnique ids) 0
  have hlen1 : (g.item_nodes.set ((orderedUnique ids).headD 0).toNat
      { g.item_nodes.getD ((orderedUnique ids).headD 0).toNat default with
        rate := ((orderedUnique ids).map fun i =>
          (g.item_nodes.getD i.toNat default).rate).sum }).length =
      g.item_nodes.length := List.length_set _ _ _
  have hkeepnode : (((orderedUnique ids).tail.foldl
      (fun acc i => acc.set i.toNat
        { acc.getD i.toNat default with active := false })
      (g.item_nodes.set ((orderedUnique ids).headD 0).toNat
        { g.item_nodes.getD ((orderedUnique ids).headD 0).toNat default with
          rate := ((orderedUnique ids).map fun i =>
            (g.item_nodes.getD i.toNat default).rate).sum })).getD
      ((orderedUnique ids).headD 0).toNat default) =
      { g.item_nodes.getD ((orderedUnique ids).headD 0).toNat default with
        rate := ((orderedUnique ids).map fun i =>
          (g.item_nodes.getD i.toNat default).rate).sum } := by
    rw [deactivate_getD _ _ _
      htail_nodup htail_nn (by rw [hlen1]; exact hknatlt)]
    rw [if_neg (by rw [hkeepnat]; exact hkeepnot)]
    rw [List.getD_eq_getElem _ _ (by rw [hlen1]; exact hknatlt),
      List.getElem_set_self]
  constructor
  · rw [heq]
    dsimp only
    rw [hkeepnode]
  · rw [heq]
    dsimp only
    rw [hkeepnode]

/-- Claim C9: on the same graph, two `merge_leaves` calls whose id lists are
permutations of one another and which both succeed produce the same
surviving rate (the common sum of the merged rates), while each call's
surviving id is the first distinct id of that call's own argument order. -/
theorem C9_merge_perm (g : GenGraph) (l₁ l₂ : List Int)
    (hperm : l₁.Perm l₂)
    (h₁ : (g.merge_leaves l₁).1 = true)
    (h₂ : (g.merge_leaves l₂).1 = true) :
    ∃ r : ℚ,
      (g.merge_leaves l₁).2.1 =
        .merged ((orderedUnique l₁).headD 0)
          (g.item_nodes.getD ((orderedUnique l₁).headD 0).toNat default).name
          r ∧
      (g.merge_leaves l₂).2.1 =
        .merged ((orderedUnique l₂).headD 0)
          (g.item_nodes.getD ((orderedUnique l₂).headD 0).toNat default).name
          r ∧
      ((g.merge_leaves l₁).2.2.item_nodes.getD
        ((orderedUnique l₁).headD 0).toNat default).rate = r ∧
      ((g.merge_leaves l₂).2.2.item_nodes.getD
        ((orderedUnique l₂).headD 0).toNat default).rate = r := by
  have huperm : (orderedUnique l₁).Perm (orderedUnique l₂) := by
    rw [List.perm_ext_iff_of_nodup (nodup_orderedUnique l₁)
      (nodup_orderedUnique l₂)]
    intro a
    rw [mem_orderedUnique, mem_orderedUnique]
    exact ⟨fun hx => hperm.mem_iff.mp hx, fun hx => hperm.mem_iff.mpr hx⟩
  have hsum : ((orderedUnique l₁).map fun i =>
      (g.item_nodes.getD i.toNat default).rate).sum =
      ((orderedUnique l₂).map fun i =>
        (g.item_nodes.getD i.toNat default).rate).sum :=
    (huperm.map _).sum_eq
  obtain ⟨hr₁, hm₁⟩ := merge_keep_summary g l₁ h₁
  obtain ⟨hr₂, hm₂⟩ := merge_keep_summary g l₂ h₂
  exact ⟨_, hm₁, by rw [hm₂, hsum], hr₁, by rw [hr₂, hsum]⟩

end GenGraph
end Planner

namespace Planner
namespace GenGraph

theorem C9_merge_perm_witness :
    ([2, 3] : List Int).Perm [3, 2] ∧
    (exG3.merge_leaves [2, 3]).1 = true ∧
    (exG3.merge_leaves [3, 2]).1 = true ∧
    (∃ r : ℚ,
      (exG3.merge_leaves [2, 3]).2.1 =
        .merged ((orderedUnique [2, 3]).headD 0)
          (exG3.item_nodes.getD ((orderedUnique [2, 3]).headD 0).toNat
            default).name r ∧
      (exG3.merge_leaves [3, 2]).2.1 =
        .merged ((orderedUnique [3, 2]).headD 0)
          (exG3.item_nodes.getD ((orderedUnique [3, 2]).headD 0).toNat
            default).name r ∧
      ((exG3.merge_leaves [2, 3]).2.2.item_nodes.getD
        ((orderedUnique [2, 3]).headD 0).toNat default).rate = r ∧
      ((exG3.merge_leaves [3, 2]).2.2.item_nodes.getD
        ((orderedUnique [3, 2]).headD 0).toNat default).rate = r) :=
  ⟨by decide, by decide, by decide,
   C9_merge_perm exG3 [2, 3] [3, 2] (by decide) (by decide) (by decide)⟩

end GenGraph
end Planner

namespace Planner
namespace GenGraph

theorem scale_success_spec (g : GenGraph) (id : Int) (t : ℚ)
    (h : (g.scale_connected_component id t).1 = true) :
    g.isValidItem id = true ∧ 0 < t ∧
    0 < (g.item_nodes.getD id.toNat default).rate ∧
    g.scale_connected_component id t =
      (true,
       .scaledComponent (t / (g.item_nodes.getD id.toNat default).rate)
         (g.bfsFrom id).1.length (g.bfsFrom id).2.length,
       { item_nodes := scaleItems g.item_nodes (g.bfsFrom id).1
           (t / (g.item_nodes.getD id.toNat default).rate),
         recipe_nodes := scaleRecipes g.recipe_nodes (g.bfsFrom id).2
           (t / (g.item_nodes.getD id.toNat default).rate) }) := by
  unfold scale_connected_component at h ⊢
  by_cases c1 : g.isValidItem id = true
  case neg => rw [if_pos (by simp [c1])] at h; simp at h
  rw [if_neg (by simp [c1])] at h ⊢
  by_cases c2 : t ≤ 0
  case pos => rw [if_pos c2] at h; simp at h
  rw [if_neg c2] at h ⊢
  dsimp only at h ⊢
  by_cases c3 : (g.item_nodes.getD id.toNat default).rate ≤ 0
  case pos => rw [if_pos c3] at h; simp at h
  rw [if_neg c3] at h ⊢
  exact ⟨c1, by linarith, by linarith, rfl⟩

theorem scaleItems_pos (items : List ItemNode) (ids : List Int) (f : ℚ)
    (hf : 0 < f) (h : ∀ n ∈ items, n.active = true → 0 < n.rate) :
    ∀ n ∈ scaleItems items ids f, n.active = true → 0 < n.rate := by
  unfold scaleItems
  induction ids generalizing items with
  | nil => exact h
  | cons i rest ih =>
    rw [List.foldl_cons]
    apply ih
    intro n hn hna
    rcases List.mem_or_eq_of_mem_set hn with hmem | hx
    · exact h n hmem hna
    · by_cases hrange : i.toNat < items.length
      · subst hx
        have hmem' : items.getD i.toNat default ∈ items := by
          rw [List.getD_eq_getElem _ _ hrange]
          exact List.getElem_mem hrange
        have := h _ hmem' (by simpa using hna)
        have : 0 < (items.getD i.toNat default).rate := this
        simpa using mul_pos this hf
      · rw [List.set_eq_of_length_le (by omega)] at hn
        exact h n hn hna

theorem scaleRecipes_pos (recipes : List RecipeNode) (ids : List Nat) (f : ℚ)
    (hf : 0 < f)
    (h : ∀ rn ∈ recipes, rn.active = true → 0 < rn.machines) :
    ∀ rn ∈ scaleRecipes recipes ids f, rn.active = true → 0 < rn.machines := by
  unfold scaleRecipes
  induction ids generalizing recipes with
  | nil => exact h
  | cons i rest ih =>
    rw [List.foldl_cons]
    apply ih
    intro rn hrn hra
    rcases List.mem_or_eq_of_mem_set hrn with hmem | hx
    · exact h rn hmem hra
    · by_cases hrange : i < recipes.length
      · subst hx
        have hmem' : recipes.getD i default ∈ recipes := by
          rw [List.getD_eq_getElem _ _ hrange]
          exact List.getElem_mem hrange
        have := h _ hmem' (by simpa using hra)
        simpa using mul_pos this hf
      · rw [List.set_eq_of_length_le (by omega)] at hrn
        exact h rn hrn hra

end GenGraph
end Planner

namespace Planner

namespace GenGraph

theorem expand_posInv (g : GenGraph) (id : Int) (r : Recipe)
    (hg : PosInv g) (hr : PosRecipe r) : PosInv (g.expand id r).2.2 := by
  by_cases hs : (g.expand id r).1 = true
  case neg =>
    rw [expand_graph_of_fail g id r (by simpa using hs)]
    exact hg
  obtain ⟨op, _, _, hoplt, _, _, _, _, hmpos, heq⟩ :=
    expand_success_spec g id r hs
  rw [heq]
  constructor
  · intro n hn hna
    rcases List.mem_append.mp hn with hold | hnew
    · exact hg.1 n hold hna
    · obtain ⟨p, hp, hpn⟩ := List.mem_map.mp hnew
      rcases List.mem_append.mp hp with hout | hin
      · have hpo : p ∈ r.outs := by
          rcases List.mem_append.mp hout with h1 | h1
          · exact List.mem_of_mem_take h1
          · exact List.mem_of_mem_drop h1
        rw [← hpn]
        exact mul_pos hmpos (hr.2 p hpo)
      · rw [← hpn]
        exact mul_pos hmpos (hr.1 p hin)
  · intro rn hrn hra
    rcases List.mem_append.mp hrn with hold | hnew
    · exact hg.2 rn hold hra
    · rw [List.mem_singleton.mp hnew]
      exact hmpos

theorem scale_posInv (g : GenGraph) (id : Int) (t : ℚ)
    (hg : PosInv g) : PosInv (g.scale_connected_component id t).2.2 := by
  by_cases hs : (g.scale_connected_component id t).1 = true
  case neg =>
    rw [scale_graph_of_fail g id t (by simpa using hs)]
    exact hg
  obtain ⟨_, ht, hcur, heq⟩ := scale_success_spec g id t hs
  rw [heq]
  have hf : 0 < t / (g.item_nodes.getD id.toNat default).rate :=
    div_pos ht hcur
  exact ⟨scaleItems_pos _ _ _ hf hg.1, scaleRecipes_pos _ _ _ hf hg.2⟩

theorem merge_posInv (g : GenGraph) (ids : List Int)
    (hg : PosInv g) : PosInv (g.merge_leaves ids).2.2 := by
  by_cases hs : (g.merge_leaves ids).1 = true
  case neg =>
    rw [merge_graph_of_fail g ids (by simpa using hs)]
    exact hg
  obtain ⟨hlen2, hvalid, _hleaf, _hnames, heq⟩ := merge_success_spec g ids hs
  have hne : orderedUnique ids ≠ [] := by
    intro hc
    rw [hc] at hlen2
    simp at hlen2
  have hkeepmem := headD_mem_of_ne _ hne 0
  obtain ⟨hk0, hklt, hkact⟩ := (isValidItem_iff g _).mp (hvalid _ hkeepmem)
  have hknatlt : ((orderedUnique ids).headD 0).toNat < g.item_nodes.length :=
    by omega
  have htail_nodup : (orderedUnique ids).tail.Nodup :=
    (nodup_orderedUnique ids).tail
  have htail_nn : ∀ i ∈ (orderedUnique ids).tail, 0 ≤ i := fun i hi =>
    ((isValidItem_iff g i).mp (hvalid i (List.mem_of_mem_tail hi))).1
  have hsum : 0 < ((orderedUnique ids).map fun i =>
      (g.item_nodes.getD i.toNat default).rate).sum := by
    apply List.sum_pos
    · intro x hx
      obtain ⟨i, hi, hxi⟩ := List.mem_map.mp hx
      obtain ⟨hi0, hilt, hiact⟩ := (isValidItem_iff g i).mp (hvalid i hi)
      have hmem : g.item_nodes.getD i.toNat default ∈ g.item_nodes := by
        rw [List.getD_eq_getElem _ _ (by omega)]
        exact List.getElem_mem (by omega)
      rw [← hxi]
      exact hg.1 _ hmem hiact
    · simpa using hne
  rw [heq]
  constructor
  · intro n hn hna
    have hlen1 : (g.item_nodes.set ((orderedUnique ids).headD 0).toNat
        { g.item_nodes.getD ((orderedUnique ids).headD 0).toNat default with
          rate := ((orderedUnique ids).map fun i =>
            (g.item_nodes.getD i.toNat default).rate).sum }).length =
        g.item_nodes.length := List.length_set _ _ _
    obtain ⟨j, hj, hjn⟩ := List.mem_iff_getElem.mp hn
    have hjlen : j < g.item_nodes.length := by
      rw [deactivate_length, hlen1] at hj
      exact hj
    have hgd := deactivate_getD (orderedUnique ids).tail _ j
      htail_nodup htail_nn (by rw [hlen1]; exact hjlen)
    rw [List.getD_eq_getElem _ _ (by rwa [deactivate_length, hlen1]),
      hjn] at hgd
    by_cases hjt : (j : Int) ∈ (orderedUnique ids).tail
    · rw [if_pos hjt] at hgd
      rw [hgd] at hna
      simp at hna
    · rw [if_neg hjt] at hgd
      have hset : (g.item_nodes.set ((orderedUnique ids).headD 0).toNat
          { g.item_nodes.getD ((orderedUnique ids).headD 0).toNat default with
            rate := ((orderedUnique ids).map fun i =>
              (g.item_nodes.getD i.toNat default).rate).sum }).getD j default =
          if ((orderedUnique ids).headD 0).toNat = j
          then { g.item_nodes.getD ((orderedUnique ids).headD 0).toNat default
                 with rate := ((orderedUnique ids).map fun i =>
                   (g.item_nodes.getD i.toNat default).rate).sum }
          else g.item_nodes.getD j default := by
        rw [List.getD_eq_getElem _ _ (by rw [hlen1]; exact hjlen),
          List.getElem_set, List.getD_eq_getElem _ _ hjlen]
      rw [hset] at hgd
      by_cases hjk : ((orderedUnique ids).headD 0).toNat = j
      · rw [if_pos hjk] at hgd
        rw [hgd]
        exact hsum
      · rw [if_neg hjk] at hgd
        rw [hgd] at hna ⊢
        exact hg.1 _
          (by rw [List.getD_eq_getElem _ _ hjlen]
              exact List.getElem_mem hjlen) hna
  · intro rn hrn hra
    obtain ⟨rn0, hrn0, hrnf⟩ := List.mem_map.mp hrn
    by_cases hact : rn0.active = true
    · rw [if_pos hact] at hrnf
      rw [← hrnf]
      rw [← hrnf] at hra
      exact hg.2 rn0 hrn0 (by simpa using hra)
    · rw [if_neg hact] at hrnf
      rw [← hrnf]
      rw [← hrnf] at hra
      exact hg.2 rn0 hrn0 hra

end GenGraph
end Planner

namespace Planner

namespace GenGraph

/-- Counterexample to claim C5 as stated: `expand` accepts a catalog
recipe whose input slot declares rate 0 and stores an active item node of
rate 0, so non-positive values are not rejected at the operation boundary
for arbitrary catalog recipes. -/
theorem C5_pos_counterexample :
    PosInv exG1 ∧ (exG1.expand 0 exR5bad).1 = true ∧
    ¬ PosInv (exG1.expand 0 exR5bad).2.2 := by
  refine ⟨⟨?_, ?_⟩, ?_, ?_⟩
  · intro n hn _
    simp only [exG1, List.mem_singleton] at hn
    rw [hn]
    norm_num
  · intro rn hrn
    simp [exG1] at hrn
  · norm_num [exG1, exR5bad, expand, isValidItem, producersOf,
      List.range_succ, List.filter]
  · intro hpi
    have hexp : (exG1.expand 0 exR5bad).2.2 =
        ⟨[⟨"Rubber", 60, true⟩, ⟨"Water", 0, true⟩],
         [⟨exR5bad, 1, "Refinery", [1], [0], true⟩]⟩ := by
      norm_num [exG1, exR5bad, expand, isValidItem, producersOf,
        List.range_succ, List.filter, expandOuts, expandIns]
    rw [hexp] at hpi
    have := hpi.1 ⟨"Water", 0, true⟩ (by simp) rfl
    norm_num at this

/-- Claim C5 (amended): starting from a graph whose active item nodes all have
strictly positive rate and whose active recipe nodes all have strictly
positive machine counts, any sequence of `expand`,
`scale_connected_component` and `merge_leaves` calls preserves that
invariant, provided every recipe passed to `expand` has strictly positive
declared rates on all of its input and output slots. -/
theorem C5_pos_invariant (ops : List Op) (g : GenGraph)
    (hg : PosInv g) (hops : ∀ op ∈ ops, OpRecipesPos op) :
    PosInv (applyOps g ops) := by
  induction ops generalizing g with
  | nil => exact hg
  | cons op rest ih =>
    simp only [applyOps, List.foldl_cons] at *
    have h1 : PosInv (applyOp g op).2.2 := by
      cases op with
      | expandOp id r =>
        exact expand_posInv g id r hg (hops _ (List.mem_cons_self _ _))
      | scaleOp id t => exact scale_posInv g id t hg
      | mergeOp ids => exact merge_posInv g ids hg
    exact ih _ h1 (fun o ho => hops o (List.mem_cons_of_mem _ ho))

theorem C5_pos_invariant_witness :
    PosInv exG1 ∧
    (∀ op ∈ [Op.expandOp 0 exR1, Op.scaleOp 0 120, Op.mergeOp []],
      OpRecipesPos op) ∧
    PosInv (applyOps exG1 [Op.expandOp 0 exR1, Op.scaleOp 0 120,
      Op.mergeOp []]) := by
  have h1 : PosInv exG1 := by
    constructor
    · intro n hn _
      simp only [exG1, List.mem_singleton] at hn
      rw [hn]
      norm_num
    · intro rn hrn
      simp [exG1] at hrn
  have h2 : ∀ op ∈ [Op.expandOp 0 exR1, Op.scaleOp 0 120, Op.mergeOp []],
      OpRecipesPos op := by
    intro op hop
    rcases List.mem_cons.mp hop with h | hop2
    · subst h
      constructor
      · intro p hp
        rcases List.mem_cons.mp hp with h | hp2
        · rw [h]; norm_num
        · have h := List.mem_singleton.mp hp2
          rw [h]; norm_num
      · intro p hp
        have h := List.mem_singleton.mp hp
        rw [h]; norm_num
    · rcases List.mem_cons.mp hop2 with h | hop3
      · subst h; trivial
      · rcases List.mem_cons.mp hop3 with h | hop4
        · subst h; trivial
        · simp at hop4
  exact ⟨h1, h2, C5_pos_invariant _ exG1 h1 h2⟩

end GenGraph
end Planner

namespace Planner

namespace GenGraph

theorem C8_output_match_errors_witness :
    exG1.isValidItem 0 = true ∧
    (exG1.producersOf 0).length = 0 ∧
    (exR0.outs.countP
      (fun p => p.1 = (exG1.item_nodes.getD (0 : Int).toNat default).name) =
        0 ∧
      exG1.expand 0 exR0 = (false, .notProduced, exG1)) ∧
    (2 ≤ exR2.outs.countP
      (fun p => p.1 = (exG1.item_nodes.getD (0 : Int).toNat default).name) ∧
      exG1.expand 0 exR2 = (false, .duplicatedOutputs, exG1)) :=
  ⟨by decide, by decide,
   ⟨by decide,
    (C8_output_match_errors exG1 0 exR0 (by decide) (by decide)).1
      (by decide)⟩,
   ⟨by decide,
    (C8_output_match_errors exG1 0 exR2 (by decide) (by decide)).2
      (by decide)⟩⟩

end GenGraph
end Planner

namespace Planner
namespace GenGraph

theorem mem_producersOf (g : GenGraph) (rid : Nat) (i : Int) :
    rid ∈ g.producersOf i ↔
      rid < g.recipe_nodes.length ∧
      (g.recipe_nodes.getD rid default).active = true ∧
      g.isValidItem i = true ∧
      i ∈ (g.recipe_nodes.getD rid default).out_ids := by
  unfold producersOf
  rw [List.mem_flatMap]
  constructor
  · rintro ⟨a, ha, hmem⟩
    rw [List.mem_range] at ha
    dsimp only at hmem
    by_cases hact : (g.recipe_nodes.getD a default).active = true
    · rw [if_pos hact] at hmem
      obtain ⟨o, ho, hoeq⟩ := List.mem_filterMap.mp hmem
      by_cases hcond : o = i ∧ g.isValidItem o = true
      · rw [if_pos hcond] at hoeq
        obtain ⟨rfl⟩ := Option.some_inj.mp hoeq
        obtain ⟨rfl, hval⟩ := hcond
        exact ⟨ha, hact, hval, ho⟩
      · rw [if_neg hcond] at hoeq
        exact absurd hoeq (by simp)
    · rw [if_neg hact] at hmem
      exact absurd hmem (by simp)
  · rintro ⟨hlt, hact, hval, hmem⟩
    refine ⟨rid, List.mem_range.mpr hlt, ?_⟩
    dsimp only
    rw [if_pos hact]
    exact List.mem_filterMap.mpr ⟨i, hmem, by rw [if_pos ⟨rfl, hval⟩]⟩

theorem mem_consumersOf (g : GenGraph) (rid : Nat) (i : Int) :
    rid ∈ g.consumersOf i ↔
      rid < g.recipe_nodes.length ∧
      (g.recipe_nodes.getD rid default).active = true ∧
      g.isValidItem i = true ∧
      i ∈ (g.recipe_nodes.getD rid default).in_ids := by
  unfold consumersOf
  rw [List.mem_flatMap]
  constructor
  · rintro ⟨a, ha, hmem⟩
    rw [List.mem_range] at ha
    dsimp only at hmem
    by_cases hact : (g.recipe_nodes.getD a default).active = true
    · rw [if_pos hact] at hmem
      obtain ⟨o, ho, hoeq⟩ := List.mem_filterMap.mp hmem
      by_cases hcond : o = i ∧ g.isValidItem o = true
      · rw [if_pos hcond] at hoeq
        obtain ⟨rfl⟩ := Option.some_inj.mp hoeq
        obtain ⟨rfl, hval⟩ := hcond
        exact ⟨ha, hact, hval, ho⟩
      · rw [if_neg hcond] at hoeq
        exact absurd hoeq (by simp)
    · rw [if_neg hact] at hmem
      exact absurd hmem (by simp)
  · rintro ⟨hlt, hact, hval, hmem⟩
    refine ⟨rid, List.mem_range.mpr hlt, ?_⟩
    dsimp only
    rw [if_pos hact]
    exact List.mem_filterMap.mpr ⟨i, hmem, by rw [if_pos ⟨rfl, hval⟩]⟩

end GenGraph
end Planner

namespace Planner
namespace GenGraph

theorem bfsItemStep_fold (L : List Nat) (vr : List Nat) (q : List BNode) :
    ∃ new : List Nat,
      L.foldl bfsItemStep (vr, q) = (vr ++ new, q ++ new.map BNode.recipe) ∧
      new.Nodup ∧
      (∀ x ∈ new, x ∉ vr ∧ x ∈ L) ∧
      (∀ x ∈ L, x ∈ vr ∨ x ∈ new) := by
  induction L generalizing vr q with
  | nil => exact ⟨[], by simp, List.nodup_nil, by simp, by simp⟩
  | cons a t ih =>
    rw [List.foldl_cons]
    by_cases ha : a ∈ vr
    · rw [show bfsItemStep (vr, q) a = (vr, q) by
        unfold bfsItemStep; rw [if_pos ha]]
      obtain ⟨new, heq, hnd, hnotin, hcomp⟩ := ih vr q
      refine ⟨new, heq, hnd,
        fun x hx => ⟨(hnotin x hx).1,
          List.mem_cons_of_mem _ (hnotin x hx).2⟩, ?_⟩
      intro x hx
      rcases List.mem_cons.mp hx with rfl | hx
      · exact Or.inl ha
      · exact hcomp x hx
    · rw [show bfsItemStep (vr, q) a = (vr ++ [a], q ++ [.recipe a]) by
        unfold bfsItemStep; rw [if_neg ha]]
      obtain ⟨new, heq, hnd, hnotin, hcomp⟩ := ih (vr ++ [a]) (q ++ [.recipe a])
      refine ⟨a :: new, ?_, ?_, ?_, ?_⟩
      · rw [heq]
        simp [List.append_assoc]
      · rw [List.nodup_cons]
        refine ⟨fun hc => ?_, hnd⟩
        have := (hnotin a hc).1
        simp at this
      · intro x hx
        rcases List.mem_cons.mp hx with rfl | hx
        · exact ⟨ha, List.mem_cons_self _ _⟩
        · obtain ⟨hnv, hmem⟩ := hnotin x hx
          refine ⟨fun hc => hnv ?_, List.mem_cons_of_mem _ hmem⟩
          simp [hc]
      · intro x hx
        rcases List.mem_cons.mp hx with rfl | hx
        · exact Or.inr (List.mem_cons_self _ _)
        · rcases hcomp x hx with hv | hn
          · rcases List.mem_append.mp hv with hv | hv
            · exact Or.inl hv
            · exact Or.inr (by simp at hv; simp [hv])
          · exact Or.inr (List.mem_cons_of_mem _ hn)

theorem bfsRecipeStep_fold (g : GenGraph) (L : List Int) (vi : List Int)
    (q : List BNode) :
    ∃ new : List Int,
      L.foldl (bfsRecipeStep g) (vi, q) =
        (vi ++ new, q ++ new.map BNode.item) ∧
      new.Nodup ∧
      (∀ x ∈ new, x ∉ vi ∧ x ∈ L ∧ g.isValidItem x = true) ∧
      (∀ x ∈ L, g.isValidItem x = true → x ∈ vi ∨ x ∈ new) := by
  induction L generalizing vi q with
  | nil => exact ⟨[], by simp, List.nodup_nil, by simp, by simp⟩
  | cons a t ih =>
    rw [List.foldl_cons]
    by_cases ha : g.isValidItem a = true ∧ a ∉ vi
    · rw [show bfsRecipeStep g (vi, q) a = (vi ++ [a], q ++ [.item a]) by
        unfold bfsRecipeStep; rw [if_pos ha]]
      obtain ⟨new, heq, hnd, hnotin, hcomp⟩ := ih (vi ++ [a]) (q ++ [.item a])
      refine ⟨a :: new, ?_, ?_, ?_, ?_⟩
      · rw [heq]
        simp [List.append_assoc]
      · rw [List.nodup_cons]
        refine ⟨fun hc => ?_, hnd⟩
        have := (hnotin a hc).1
        simp at this
      · intro x hx
        rcases List.mem_cons.mp hx with rfl | hx
        · exact ⟨ha.2, List.mem_cons_self _ _, ha.1⟩
        · obtain ⟨hnv, hmem, hval⟩ := hnotin x hx
          refine ⟨fun hc => hnv ?_, List.mem_cons_of_mem _ hmem, hval⟩
          simp [hc]
      · intro x hx hval
        rcases List.mem_cons.mp hx with rfl | hx
        · exact Or.inr (List.mem_cons_self _ _)
        · rcases hcomp x hx hval with hv | hn
          · rcases List.mem_append.mp hv with hv | hv
            · exact Or.inl hv
            · exact Or.inr (by simp at hv; simp [hv])
          · exact Or.inr (List.mem_cons_of_mem _ hn)
    · rw [show bfsRecipeStep g (vi, q) a = (vi, q) by
        unfold bfsRecipeStep; rw [if_neg ha]]
      obtain ⟨new, heq, hnd, hnotin, hcomp⟩ := ih vi q
      refine ⟨new, heq, hnd,
        fun x hx => ⟨(hnotin x hx).1,
          List.mem_cons_of_mem _ (hnotin x hx).2.1, (hnotin x hx).2.2⟩, ?_⟩
      intro x hx hval
      rcases List.mem_cons.mp hx with rfl | hx
      · rcases Decidable.not_and_iff_or_not.mp ha with hc | hc
        · exact absurd hval hc
        · exact Or.inl (Decidable.not_not.mp hc)
      · exact hcomp x hx hval

end GenGraph
end Planner

namespace Planner
namespace GenGraph

theorem valid_nodup_length_le (g : GenGraph) (vi : List Int)
    (hnd : vi.Nodup) (hv : ∀ i ∈ vi, g.isValidItem i = true) :
    vi.length ≤ g.item_nodes.length := by
  have hmap : (vi.map Int.toNat).Nodup := by
    apply hnd.map_on
    intro x hx y hy hxy
    have hx0 := ((isValidItem_iff g x).mp (hv x hx)).1
    have hy0 := ((isValidItem_iff g y).mp (hv y hy)).1
    omega
  have hsub : (vi.map Int.toNat) ⊆ List.range g.item_nodes.length := by
    intro x hx
    obtain ⟨i, hi, rfl⟩ := List.mem_map.mp hx
    obtain ⟨h0, hlt, _⟩ := (isValidItem_iff g i).mp (hv i hi)
    rw [List.mem_range]
    omega
  have := (List.subperm_of_subset hmap hsub).length_le
  simpa using this

theorem bounded_nodup_length_le (vr : List Nat) (n : Nat)
    (hnd : vr.Nodup) (hv : ∀ r ∈ vr, r < n) : vr.length ≤ n := by
  have hsub : vr ⊆ List.range n := fun x hx => List.mem_range.mpr (hv x hx)
  have := (List.subperm_of_subset hnd hsub).length_le
  simpa using this

end GenGraph
end Planner

namespace Planner
namespace GenGraph

theorem bfsLoop_spec (g : GenGraph) (start : Int) :
    ∀ (fuel : Nat) (queue : List BNode) (vi : List Int) (vr : List Nat),
    vi.Nodup → vr.Nodup →
    (∀ i ∈ vi, g.isValidItem i = true) →
    (∀ r ∈ vr, r < g.recipe_nodes.length ∧
      (g.recipe_nodes.getD r default).active = true) →
    queue.Nodup →
    (∀ n ∈ queue, visMem vi vr n) →
    (∀ n, visMem vi vr n → InComponent g start n) →
    (∀ n, visMem vi vr n → n ∉ queue → ∀ m, Adj g n m → visMem vi vr m) →
    queue.length + (g.item_nodes.length - vi.length) +
      (g.recipe_nodes.length - vr.length) ≤ fuel →
    (bfsLoop g fuel queue vi vr).1.Nodup ∧
    (bfsLoop g fuel queue vi vr).2.Nodup ∧
    (∀ i ∈ vi, i ∈ (bfsLoop g fuel queue vi vr).1) ∧
    (∀ i ∈ (bfsLoop g fuel queue vi vr).1, g.isValidItem i = true) ∧
    (∀ r ∈ (bfsLoop g fuel queue vi vr).2, r < g.recipe_nodes.length) ∧
    (∀ n, visMem (bfsLoop g fuel queue vi vr).1
      (bfsLoop g fuel queue vi vr).2 n → InComponent g start n) ∧
    (∀ n m, visMem (bfsLoop g fuel queue vi vr).1
      (bfsLoop g fuel queue vi vr).2 n → Adj g n m →
      visMem (bfsLoop g fuel queue vi vr).1
        (bfsLoop g fuel queue vi vr).2 m) := by
  intro fuel
  induction fuel with
  | zero =>
    intro queue vi vr h1 h2 h3 h4 h5 h6 h7 h8 h9
    have hq : queue = [] := by
      rw [← List.length_eq_zero]
      omega
    subst hq
    refine ⟨h1, h2, fun i hi => hi, h3, fun r hr => (h4 r hr).1, h7, ?_⟩
    intro n m hn hadj
    exact h8 n hn (by simp) m hadj
  | succ fuel ih =>
    intro queue vi vr h1 h2 h3 h4 h5 h6 h7 h8 h9
    cases queue with
    | nil =>
      refine ⟨h1, h2, fun i hi => hi, h3, fun r hr => (h4 r hr).1, h7, ?_⟩
      intro n m hn hadj
      exact h8 n hn (by simp) m hadj
    | cons node rest =>
      cases node with
      | item iid =>
        obtain ⟨new, heq, hnd_new, hnotin, hcomp⟩ :=
          bfsItemStep_fold (g.producersOf iid ++ g.consumersOf iid) vr []
        have hiid_vi : iid ∈ vi := h6 _ (List.mem_cons_self _ _)
        have hunfold : bfsLoop g (fuel + 1) (.item iid :: rest) vi vr =
            bfsLoop g fuel (rest ++ new.map BNode.recipe) vi (vr ++ new) := by
          show bfsLoop g fuel
            (rest ++ ((g.producersOf iid ++ g.consumersOf iid).foldl
              bfsItemStep (vr, [])).2) vi
            ((g.producersOf iid ++ g.consumersOf iid).foldl
              bfsItemStep (vr, [])).1 =
            bfsLoop g fuel (rest ++ new.map BNode.recipe) vi (vr ++ new)
          rw [heq]
          simp
        rw [hunfold]
        have hnew_facts : ∀ r ∈ new, r < g.recipe_nodes.length ∧
            (g.recipe_nodes.getD r default).active = true := by
          intro r hr
          rcases List.mem_append.mp (hnotin r hr).2 with hp | hc
          · have := (mem_producersOf g r iid).mp hp
            exact ⟨this.1, this.2.1⟩
          · have := (mem_consumersOf g r iid).mp hc
            exact ⟨this.1, this.2.1⟩
        have hrest_nodup : rest.Nodup := (List.nodup_cons.mp h5).2
        have hvr_new_nodup : (vr ++ new).Nodup := by
          rw [List.nodup_append]
          exact ⟨h2, hnd_new, fun x hx hx2 => (hnotin x hx2).1 hx⟩
        have hreach_new : ∀ r ∈ new, InComponent g start (.recipe r) := by
          intro r hr
          apply Relation.ReflTransGen.tail (h7 (.item iid) hiid_vi)
          show Adj g (.item iid) (.recipe r)
          exact List.mem_append.mp (hnotin r hr).2
        apply ih
        · exact h1
        · exact hvr_new_nodup
        · exact h3
        · intro r hr
          rcases List.mem_append.mp hr with hold | hnew2
          · exact h4 r hold
          · exact hnew_facts r hnew2
        · rw [List.nodup_append]
          refine ⟨hrest_nodup, hnd_new.map fun a b h => BNode.recipe.inj h, ?_⟩
          intro x hx hx2
          obtain ⟨r, hr, rfl⟩ := List.mem_map.mp hx2
          have := h6 _ (List.mem_cons_of_mem _ hx)
          exact (hnotin r hr).1 this
        · intro n hn
          rcases List.mem_append.mp hn with hrest | hnew2
          · have := h6 n (List.mem_cons_of_mem _ hrest)
            cases n with
            | item i => exact this
            | recipe r => exact List.mem_append_left _ this
          · obtain ⟨r, hr, rfl⟩ := List.mem_map.mp hnew2
            exact List.mem_append_right _ hr
        · intro n hn
          cases n with
          | item i => exact h7 _ hn
          | recipe r =>
            rcases List.mem_append.mp hn with hold | hnew2
            · exact h7 _ hold
            · exact hreach_new r hnew2
        · intro n hn hnq m hadj
          cases n with
          | item i =>
            by_cases hii : i = iid
            · subst hii
              cases m with
              | item j => exact absurd hadj (by simp [Adj])
              | recipe r =>
                have hrL : r ∈ g.producersOf i ++ g.consumersOf i :=
                  List.mem_append.mpr hadj
                rcases hcomp r hrL with hv | hn2
                · exact List.mem_append_left _ hv
                · exact List.mem_append_right _ hn2
            · have hnotq : BNode.item i ∉ BNode.item iid :: rest := by
                intro hc
                rcases List.mem_cons.mp hc with hc1 | hc2
                · exact hii (BNode.item.inj hc1)
                · exact hnq (List.mem_append_left _ hc2)
              have := h8 (.item i) hn hnotq m hadj
              cases m with
              | item j => exact this
              | recipe r => exact List.mem_append_left _ this
          | recipe r =>
            rcases List.mem_append.mp hn with hold | hnew2
            · have hnotq : BNode.recipe r ∉ BNode.item iid :: rest := by
                intro hc
                rcases List.mem_cons.mp hc with hc1 | hc2
                · exact absurd hc1 (by simp)
                · exact hnq (List.mem_append_left _ hc2)
              have := h8 (.recipe r) hold hnotq m hadj
              cases m with
              | item j => exact this
              | recipe r2 => exact List.mem_append_left _ this
            · exact absurd (List.mem_append_right rest
                (List.mem_map.mpr ⟨r, hnew2, rfl⟩)) hnq
        · have hvrb : (vr ++ new).length ≤ g.recipe_nodes.length := by
            apply bounded_nodup_length_le _ _ hvr_new_nodup
            intro r hr
            rcases List.mem_append.mp hr with hold | hnew2
            · exact (h4 r hold).1
            · exact (hnew_facts r hnew2).1
          have hvib : vi.length ≤ g.item_nodes.length :=
            valid_nodup_length_le g vi h1 h3
          simp only [List.length_append, List.length_map,
            List.length_cons] at h9 hvrb ⊢
          omega
      | recipe rid =>
        have hrid_vr : rid ∈ vr := h6 _ (List.mem_cons_self _ _)
        obtain ⟨hrid_lt, hrid_act⟩ := h4 rid hrid_vr
        obtain ⟨new, heq, hnd_new, hnotin, hcomp⟩ :=
          bfsRecipeStep_fold g
            ((g.recipe_nodes.getD rid default).in_ids ++
             (g.recipe_nodes.getD rid default).out_ids) vi []
        have hunfold : bfsLoop g (fuel + 1) (.recipe rid :: rest) vi vr =
            bfsLoop g fuel (rest ++ new.map BNode.item) (vi ++ new) vr := by
          show (if ¬ (g.recipe_nodes.getD rid default).active = true then
              bfsLoop g fuel rest vi vr
            else
              bfsLoop g fuel
                (rest ++ (((g.recipe_nodes.getD rid default).in_ids ++
                  (g.recipe_nodes.getD rid default).out_ids).foldl
                  (bfsRecipeStep g) (vi, [])).2)
                (((g.recipe_nodes.getD rid default).in_ids ++
                  (g.recipe_nodes.getD rid default).out_ids).foldl
                  (bfsRecipeStep g) (vi, [])).1 vr) =
            bfsLoop g fuel (rest ++ new.map BNode.item) (vi ++ new) vr
          rw [if_neg (by simpa using hrid_act), heq]
          simp
        rw [hunfold]
        have hnew_valid : ∀ i ∈ new, g.isValidItem i = true := fun i hi =>
          (hnotin i hi).2.2
        have hrest_nodup : rest.Nodup := (List.nodup_cons.mp h5).2
        have hvi_new_nodup : (vi ++ new).Nodup := by
          rw [List.nodup_append]
          exact ⟨h1, hnd_new, fun x hx hx2 => (hnotin x hx2).1 hx⟩
        have hadj_new : ∀ i ∈ new, Adj g (.recipe rid) (.item i) := by
          intro i hi
          show rid ∈ g.producersOf i ∨ rid ∈ g.consumersOf i
          rcases List.mem_append.mp (hnotin i hi).2.1 with hin | hout
          · exact Or.inr ((mem_consumersOf g rid i).mpr
              ⟨hrid_lt, hrid_act, hnew_valid i hi, hin⟩)
          · exact Or.inl ((mem_producersOf g rid i).mpr
              ⟨hrid_lt, hrid_act, hnew_valid i hi, hout⟩)
        have hreach_new : ∀ i ∈ new, InComponent g start (.item i) := by
          intro i hi
          exact Relation.ReflTransGen.tail (h7 (.recipe rid) hrid_vr)
            (hadj_new i hi)
        obtain ⟨ha, hb, hc, hd, he, hf, hg2⟩ :=
          ih (rest ++ new.map BNode.item) (vi ++ new) vr
            hvi_new_nodup
            h2
            (by
              intro i hi
              rcases List.mem_append.mp hi with hold | hnew2
              · exact h3 i hold
              · exact hnew_valid i hnew2)
            h4
            (by
              rw [List.nodup_append]
              refine ⟨hrest_nodup,
                hnd_new.map fun a b h => BNode.item.inj h, ?_⟩
              intro x hx hx2
              obtain ⟨i, hi, rfl⟩ := List.mem_map.mp hx2
              have := h6 _ (List.mem_cons_of_mem _ hx)
              exact (hnotin i hi).1 this)
            (by
              intro n hn
              rcases List.mem_append.mp hn with hrest | hnew2
              · have := h6 n (List.mem_cons_of_mem _ hrest)
                cases n with
                | item i => exact List.mem_append_left _ this
                | recipe r => exact this
              · obtain ⟨i, hi, rfl⟩ := List.mem_map.mp hnew2
                exact List.mem_append_right _ hi)
            (by
              intro n hn
              cases n with
              | recipe r => exact h7 _ hn
              | item i =>
                rcases List.mem_append.mp hn with hold | hnew2
                · exact h7 _ hold
                · exact hreach_new i hnew2)
            (by
              intro n hn hnq m hadj
              cases n with
              | recipe r =>
                by_cases hrr : r = rid
                · subst hrr
                  cases m with
                  | recipe r2 => exact absurd hadj (by simp [Adj])
                  | item i =>
                    have hvalid_i : g.isValidItem i = true ∧
                        i ∈ (g.recipe_nodes.getD r default).in_ids ++
                          (g.recipe_nodes.getD r default).out_ids := by
                      rcases hadj with hp | hc
                      · have := (mem_producersOf g r i).mp hp
                        exact ⟨this.2.2.1,
                          List.mem_append_right _ this.2.2.2⟩
                      · have := (mem_consumersOf g r i).mp hc
                        exact ⟨this.2.2.1,
                          List.mem_append_left _ this.2.2.2⟩
                    rcases hcomp i hvalid_i.2 hvalid_i.1 with hv | hn2
                    · exact List.mem_append_left _ hv
                    · exact List.mem_append_right _ hn2
                · have hnotq : BNode.recipe r ∉ BNode.recipe rid :: rest := by
                    intro hc
                    rcases List.mem_cons.mp hc with hc1 | hc2
                    · exact hrr (BNode.recipe.inj hc1)
                    · exact hnq (List.mem_append_left _ hc2)
                  have := h8 (.recipe r) hn hnotq m hadj
                  cases m with
                  | recipe r2 => exact this
                  | item j => exact List.mem_append_left _ this
              | item i =>
                rcases List.mem_append.mp hn with hold | hnew2
                · have hnotq : BNode.item i ∉ BNode.recipe rid :: rest := by
                    intro hc
                    rcases List.mem_cons.mp hc with hc1 | hc2
                    · exact absurd hc1 (by simp)
                    · exact hnq (List.mem_append_left _ hc2)
                  have := h8 (.item i) hold hnotq m hadj
                  cases m with
                  | recipe r2 => exact this
                  | item j => exact List.mem_append_left _ this
                · exact absurd (List.mem_append_right rest
                    (List.mem_map.mpr ⟨i, hnew2, rfl⟩)) hnq)
            (by
              have hvib : (vi ++ new).length ≤ g.item_nodes.length := by
                apply valid_nodup_length_le g _ hvi_new_nodup
                intro i hi
                rcases List.mem_append.mp hi with hold | hnew2
                · exact h3 i hold
                · exact hnew_valid i hnew2
              have hvrb : vr.length ≤ g.recipe_nodes.length := by
                apply bounded_nodup_length_le _ _ h2
                intro r hr
                exact (h4 r hr).1
              simp only [List.length_append, List.length_map,
                List.length_cons] at h9 hvib ⊢
              omega)
        exact ⟨ha, hb, fun i hi => hc i (List.mem_append_left _ hi),
          hd, he, hf, hg2⟩

end GenGraph
end Planner

namespace Planner
namespace GenGraph

theorem bfs_correct (g : GenGraph) (start : Int)
    (hv : g.isValidItem start = true) :
    (g.bfsFrom start).1.Nodup ∧
    (g.bfsFrom start).2.Nodup ∧
    (∀ i ∈ (g.bfsFrom start).1, g.isValidItem i = true) ∧
    (∀ r ∈ (g.bfsFrom start).2, r < g.recipe_nodes.length) ∧
    (∀ i : Int, i ∈ (g.bfsFrom start).1 ↔ InComponent g start (.item i)) ∧
    (∀ r : Nat, r ∈ (g.bfsFrom start).2 ↔ InComponent g start (.recipe r)) := by
  have hstartlen : 0 < g.item_nodes.length := by
    obtain ⟨h0, hlt, _⟩ := (isValidItem_iff g start).mp hv
    omega
  obtain ⟨ha, hb, hc, hd, he, hf, hg2⟩ :=
    bfsLoop_spec g start (g.item_nodes.length + g.recipe_nodes.length + 1)
      [.item start] [start] []
      (List.nodup_singleton start)
      List.nodup_nil
      (by intro i hi; rw [List.mem_singleton.mp hi]; exact hv)
      (by intro r hr; simp at hr)
      (List.nodup_singleton _)
      (by
        intro n hn
        rw [List.mem_singleton.mp hn]
        show start ∈ [start]
        exact List.mem_singleton.mpr rfl)
      (by
        intro n hn
        cases n with
        | item i =>
          have : i = start := List.mem_singleton.mp hn
          rw [this]
          exact Relation.ReflTransGen.refl
        | recipe r => simp [visMem] at hn)
      (by
        intro n hn hnq m hadj
        exfalso
        apply hnq
        cases n with
        | item i =>
          have : i = start := List.mem_singleton.mp hn
          rw [this]
          exact List.mem_singleton.mpr rfl
        | recipe r => simp [visMem] at hn)
      (by simp; omega)
  have hstart_mem : start ∈ (g.bfsFrom start).1 :=
    hc start (List.mem_singleton.mpr rfl)
  refine ⟨ha, hb, hd, he, ?_, ?_⟩
  · intro i
    constructor
    · intro hi
      exact hf (.item i) hi
    · intro hreach
      have : ∀ n, InComponent g start n →
          visMem (g.bfsFrom start).1 (g.bfsFrom start).2 n := by
        intro n hn
        induction hn with
        | refl => exact hstart_mem
        | tail _ hstep ih2 => exact hg2 _ _ ih2 hstep
      exact this (.item i) hreach
  · intro r
    constructor
    · intro hr
      exact hf (.recipe r) hr
    · intro hreach
      have : ∀ n, InComponent g start n →
          visMem (g.bfsFrom start).1 (g.bfsFrom start).2 n := by
        intro n hn
        induction hn with
        | refl => exact hstart_mem
        | tail _ hstep ih2 => exact hg2 _ _ ih2 hstep
      exact this (.recipe r) hreach

end GenGraph
end Planner

namespace Planner
namespace GenGraph

theorem scaleItems_length (items : List ItemNode) (ids : List Int) (f : ℚ) :
    (scaleItems items ids f).length = items.length := by
  unfold scaleItems
  induction ids generalizing items with
  | nil => rfl
  | cons i t ih => rw [List.foldl_cons, ih, List.length_set]

theorem scaleRecipes_length (recipes : List RecipeNode) (ids : List Nat)
    (f : ℚ) : (scaleRecipes recipes ids f).length = recipes.length := by
  unfold scaleRecipes
  induction ids generalizing recipes with
  | nil => rfl
  | cons i t ih => rw [List.foldl_cons, ih, List.length_set]

theorem scaleItems_getD (items : List ItemNode) (ids : List Int) (f : ℚ)
    (j : Nat) (hnodup : ids.Nodup) (hnn : ∀ i ∈ ids, 0 ≤ i)
    (hj : j < items.length) :
    (scaleItems items ids f).getD j default =
      if (j : Int) ∈ ids
      then { items.getD j default with
             rate := (items.getD j default).rate * f }
      else items.getD j default := by
  unfold scaleItems
  induction ids generalizing items with
  | nil => simp
  | cons i t ih =>
    rw [List.foldl_cons]
    have hnn' : ∀ x ∈ t, 0 ≤ x := fun x hx => hnn x (List.mem_cons_of_mem i hx)
    have hlen : (items.set i.toNat
        { items.getD i.toNat default with
          rate := (items.getD i.toNat default).rate * f }).length =
        items.length := List.length_set items i.toNat _
    rw [ih (items.set i.toNat
        { items.getD i.toNat default with
          rate := (items.getD i.toNat default).rate * f })
      hnodup.of_cons hnn' (by rw [hlen]; exact hj)]
    by_cases hji : (j : Int) = i
    · have hi0 : 0 ≤ i := hnn i (List.mem_cons_self i t)
      have hjt : j = i.toNat := by omega
      have hjnott : (j : Int) ∉ t := by
        rw [hji]
        exact (List.nodup_cons.mp hnodup).1
      rw [if_neg hjnott, if_pos (by simp [hji])]
      subst hjt
      rw [List.getD_eq_getElem _ _ (by rw [hlen]; exact hj),
        List.getElem_set_self]
    · have hjne : j ≠ i.toNat := by
        intro hc
        apply hji
        have := hnn i (List.mem_cons_self i t)
        omega
      have hgd : (items.set i.toNat
          { items.getD i.toNat default with
            rate := (items.getD i.toNat default).rate * f }).getD j
          default = items.getD j default := by
        rw [List.getD_eq_getElem _ _ (by rw [hlen]; exact hj),
          List.getD_eq_getElem _ _ hj]
        exact List.getElem_set_ne (fun hc => hjne hc.symm) _
      rw [hgd]
      by_cases hjt : (j : Int) ∈ t
      · rw [if_pos hjt, if_pos (List.mem_cons_of_mem i hjt)]
      · rw [if_neg hjt, if_neg (by simp [hji, hjt])]

theorem scaleRecipes_getD (recipes : List RecipeNode) (ids : List Nat)
    (f : ℚ) (j : Nat) (hnodup : ids.Nodup) (hj : j < recipes.length) :
    (scaleRecipes recipes ids f).getD j default =
      if j ∈ ids
      then { recipes.getD j default with
             machines := (recipes.getD j default).machines * f }
      else recipes.getD j default := by
  unfold scaleRecipes
  induction ids generalizing recipes with
  | nil => simp
  | cons i t ih =>
    rw [List.foldl_cons]
    have hlen : (recipes.set i
        { recipes.getD i default with
          machines := (recipes.getD i default).machines * f }).length =
        recipes.length := List.length_set recipes i _
    rw [ih (recipes.set i
        { recipes.getD i default with
          machines := (recipes.getD i default).machines * f })
      hnodup.of_cons (by rw [hlen]; exact hj)]
    by_cases hji : j = i
    · have hjnott : j ∉ t := by
        rw [hji]
        exact (List.nodup_cons.mp hnodup).1
      rw [if_neg hjnott, if_pos (by simp [hji])]
      subst hji
      rw [List.getD_eq_getElem _ _ (by rw [hlen]; exact hj),
        List.getElem_set_self]
    · have hgd : (recipes.set i
          { recipes.getD i default with
            machines := (recipes.getD i default).machines * f }).getD j
          default = recipes.getD j default := by
        rw [List.getD_eq_getElem _ _ (by rw [hlen]; exact hj),
          List.getD_eq_getElem _ _ hj]
        exact List.getElem_set_ne (fun hc => hji hc.symm) _
      rw [hgd]
      by_cases hjt : j ∈ t
      · rw [if_pos hjt, if_pos (List.mem_cons_of_mem i hjt)]
      · rw [if_neg hjt, if_neg (by simp [hji, hjt])]

end GenGraph
end Planner

namespace Planner
namespace GenGraph

/-- Claim C2: every successful `scale_connected_component(id, target)` call,
with `factor = target / current rate`, multiplies the rate of every item
node and the machine count of every recipe node in the weakly-connected
component of the starting item (undirected reachability through active
producer/consumer edges) by exactly that factor, and its success message
reports that factor together with the exact numbers of item and recipe
nodes touched. -/
theorem C2_scale_component (g : GenGraph) (id : Int) (t : ℚ)
    (h : (g.scale_connected_component id t).1 = true) :
    ∃ (vi : List Int) (vr : List Nat),
      vi.Nodup ∧ vr.Nodup ∧
      (∀ i : Int, i ∈ vi ↔ InComponent g id (.item i)) ∧
      (∀ r : Nat, r ∈ vr ↔ InComponent g id (.recipe r)) ∧
      (g.scale_connected_component id t).2.1 =
        .scaledComponent (t / (g.item_nodes.getD id.toNat default).rate)
          vi.length vr.length ∧
      (∀ i ∈ vi,
        ((g.scale_connected_component id t).2.2.item_nodes.getD i.toNat
          default).rate =
        (g.item_nodes.getD i.toNat default).rate *
          (t / (g.item_nodes.getD id.toNat default).rate)) ∧
      (∀ r ∈ vr,
        ((g.scale_connected_component id t).2.2.recipe_nodes.getD r
          default).machines =
        (g.recipe_nodes.getD r default).machines *
          (t / (g.item_nodes.getD id.toNat default).rate)) := by
  obtain ⟨hvalid, ht, hcur, heq⟩ := scale_success_spec g id t h
  obtain ⟨hnd1, hnd2, hval, hbound, hiff1, hiff2⟩ := bfs_correct g id hvalid
  refine ⟨(g.bfsFrom id).1, (g.bfsFrom id).2, hnd1, hnd2, hiff1, hiff2,
    by rw [heq], ?_, ?_⟩
  · intro i hi
    rw [heq]
    obtain ⟨hi0, hilt, _⟩ := (isValidItem_iff g i).mp (hval i hi)
    have hnn : ∀ x ∈ (g.bfsFrom id).1, 0 ≤ x := fun x hx =>
      ((isValidItem_iff g x).mp (hval x hx)).1
    rw [scaleItems_getD _ _ _ _ hnd1 hnn (by omega)]
    rw [if_pos (by rw [Int.toNat_of_nonneg hi0]; exact hi)]
  · intro r hr
    rw [heq]
    rw [scaleRecipes_getD _ _ _ _ hnd2 (hbound r hr)]
    rw [if_pos hr]

/-- Claim C7: a successful `scale_connected_component` call leaves every item
node and every recipe node outside the weakly-connected component of the
starting item completely unchanged, and appends nothing to either
sequence. -/
theorem C7_scale_frame (g : GenGraph) (id : Int) (t : ℚ)
    (h : (g.scale_connected_component id t).1 = true) :
    (g.scale_connected_component id t).2.2.item_nodes.length =
      g.item_nodes.length ∧
    (g.scale_connected_component id t).2.2.recipe_nodes.length =
      g.recipe_nodes.length ∧
    (∀ j : Nat, j < g.item_nodes.length →
      ¬ InComponent g id (.item (j : Int)) →
      (g.scale_connected_component id t).2.2.item_nodes.getD j default =
        g.item_nodes.getD j default) ∧
    (∀ r : Nat, r < g.recipe_nodes.length →
      ¬ InComponent g id (.recipe r) →
      (g.scale_connected_component id t).2.2.recipe_nodes.getD r default =
        g.recipe_nodes.getD r default) := by
  obtain ⟨hvalid, ht, hcur, heq⟩ := scale_success_spec g id t h
  obtain ⟨hnd1, hnd2, hval, hbound, hiff1, hiff2⟩ := bfs_correct g id hvalid
  have hnn : ∀ x ∈ (g.bfsFrom id).1, 0 ≤ x := fun x hx =>
    ((isValidItem_iff g x).mp (hval x hx)).1
  refine ⟨by rw [heq]; exact scaleItems_length _ _ _,
    by rw [heq]; exact scaleRecipes_length _ _ _, ?_, ?_⟩
  · intro j hj hnc
    rw [heq]
    rw [scaleItems_getD _ _ _ _ hnd1 hnn hj]
    rw [if_neg (fun hc => hnc ((hiff1 (j : Int)).mp hc))]
  · intro r hr hnc
    rw [heq]
    rw [scaleRecipes_getD _ _ _ _ hnd2 hr]
    rw [if_neg (fun hc => hnc ((hiff2 r).mp hc))]

end GenGraph
end Planner

namespace Planner

namespace GenGraph

theorem C2_scale_component_witness :
    (exG2.scale_connected_component 0 120).1 = true ∧
    (∃ (vi : List Int) (vr : List Nat),
      vi.Nodup ∧ vr.Nodup ∧
      (∀ i : Int, i ∈ vi ↔ InComponent exG2 0 (.item i)) ∧
      (∀ r : Nat, r ∈ vr ↔ InComponent exG2 0 (.recipe r)) ∧
      (exG2.scale_connected_component 0 120).2.1 =
        .scaledComponent (120 / (exG2.item_nodes.getD (0 : Int).toNat
          default).rate) vi.length vr.length ∧
      (∀ i ∈ vi,
        ((exG2.scale_connected_component 0 120).2.2.item_nodes.getD i.toNat
          default).rate =
        (exG2.item_nodes.getD i.toNat default).rate *
          (120 / (exG2.item_nodes.getD (0 : Int).toNat default).rate)) ∧
      (∀ r ∈ vr,
        ((exG2.scale_connected_component 0 120).2.2.recipe_nodes.getD r
          default).machines =
        (exG2.recipe_nodes.getD r default).machines *
          (120 / (exG2.item_nodes.getD (0 : Int).toNat default).rate))) :=
  ⟨by decide, C2_scale_component exG2 0 120 (by decide)⟩

theorem C7_scale_frame_witness :
    (exG2.scale_connected_component 0 120).1 = true ∧
    ((exG2.scale_connected_component 0 120).2.2.item_nodes.length =
      exG2.item_nodes.length ∧
    (exG2.scale_connected_component 0 120).2.2.recipe_nodes.length =
      exG2.recipe_nodes.length ∧
    (∀ j : Nat, j < exG2.item_nodes.length →
      ¬ InComponent exG2 0 (.item (j : Int)) →
      (exG2.scale_connected_component 0 120).2.2.item_nodes.getD j default =
        exG2.item_nodes.getD j default) ∧
    (∀ r : Nat, r < exG2.recipe_nodes.length →
      ¬ InComponent exG2 0 (.recipe r) →
      (exG2.scale_connected_component 0 120).2.2.recipe_nodes.getD r
        default = exG2.recipe_nodes.getD r default)) :=
  ⟨by decide, C7_scale_frame exG2 0 120 (by decide)⟩

end GenGraph
end Planner
